import Mathlib

/-!
A shallow embedding of the `unescape_zero_copy` library (`src/lib.rs`) and a
verification of its natural-language specification.

Strings are modelled as lists of Unicode scalar values (`List Char`).  Rust
byte-level operations (`str::len`, byte slicing `&s[a..b]`) are modelled
explicitly through UTF-8 byte counts; a byte slice whose boundary falls inside
a multi-byte character panics in Rust, which the embedding models with an
explicit `crash` outcome.
-/

namespace Unesc

/-- Strings as sequences of Unicode scalar values. -/
abbrev Str := List Char

/-- The kinds of `core::num::ParseIntError` reachable through
`u32::from_str_radix` (the unsigned parse: a `-` sign is treated as an
invalid digit, so `NegOverflow` is unreachable). -/
inductive ParseIntError where
  | empty
  | invalidDigit
  | posOverflow
deriving DecidableEq, Repr

/-- The `Error` enum of the library. -/
inductive Error where
  | incompleteSequence
  | incompleteUnicode
  | invalidUnicode (code : Nat)
  | unknownSequence (ch : Char)
  | parseIntError (err : ParseIntError)
deriving DecidableEq, Repr

/-- Result of a fallible Rust computation: `Ok`, `Err`, or a panic
(`crash`, from a byte slice at a non-character boundary). -/
inductive Res (α : Type) where
  | ok (a : α)
  | err (e : Error)
  | crash
deriving DecidableEq, Repr

instance {ε α : Type} [DecidableEq ε] [DecidableEq α] : DecidableEq (Except ε α) := fun a b =>
  match a, b with
  | .error x, .error y =>
    if h : x = y then .isTrue (by rw [h]) else .isFalse (fun hc => h (by injection hc))
  | .error _, .ok _ => .isFalse (fun hc => Except.noConfusion hc)
  | .ok _, .error _ => .isFalse (fun hc => Except.noConfusion hc)
  | .ok x, .ok y =>
    if h : x = y then .isTrue (by rw [h]) else .isFalse (fun hc => h (by injection hc))

/-- Model of `char::to_digit(radix)`: the numeric value of an ASCII digit or letter,
provided it is below the radix. -/
def toDigit (radix : Nat) (c : Char) : Option Nat :=
  let v : Option Nat :=
    if 48 ≤ c.toNat ∧ c.toNat ≤ 57 then some (c.toNat - 48)
    else if 97 ≤ c.toNat ∧ c.toNat ≤ 122 then some (c.toNat - 97 + 10)
    else if 65 ≤ c.toNat ∧ c.toNat ≤ 90 then some (c.toNat - 65 + 10)
    else none
  match v with
  | some d => if d < radix then some d else none
  | none => none

/-- The digit-accumulation loop of `u32::from_str_radix`, with the `u32`
overflow check (`checked_mul`/`checked_add`). -/
def parseDigits (radix : Nat) : Str → Nat → Except ParseIntError Nat
  | [], acc => .ok acc
  | c :: cs, acc =>
    match toDigit radix c with
    | none => .error .invalidDigit
    | some d =>
      if acc * radix + d < 4294967296 then parseDigits radix cs (acc * radix + d)
      else .error .posOverflow

/-- Model of `u32::from_str_radix`: empty input is `Empty`; a leading `+` is allowed
(but `+` alone is `InvalidDigit`); a `-` is not allowed for `u32` and falls
through to the digit loop, failing as an invalid digit. -/
def fromStrRadix (radix : Nat) (s : Str) : Except ParseIntError Nat :=
  match s with
  | [] => .error .empty
  | '+' :: rest => if rest = [] then .error .invalidDigit else parseDigits radix rest 0
  | _ => parseDigits radix s 0

/-- Model of `char::len_utf8`. -/
def charUtf8Size (c : Char) : Nat :=
  if c.toNat < 0x80 then 1
  else if c.toNat < 0x800 then 2
  else if c.toNat < 0x10000 then 3
  else 4

/-- Model of `str::len`: the UTF-8 byte length. -/
def utf8Len (s : Str) : Nat := (s.map charUtf8Size).sum

/-- The byte slice pair `(&s[0..k], &s[k..])`: `none` models the Rust panic
when byte index `k` is out of bounds or not a character boundary. -/
def takeBytes : Str → Nat → Option (Str × Str)
  | s, 0 => some ([], s)
  | [], _ + 1 => none
  | c :: cs, k + 1 =>
    if charUtf8Size c ≤ k + 1 then
      match takeBytes cs (k + 1 - charUtf8Size c) with
      | none => none
      | some (p, q) => some (c :: p, q)
    else none

/-- Model of `char::from_u32`: succeeds exactly on Unicode scalar values (not a
surrogate, not above U+10FFFF). -/
def charFromU32 (n : Nat) : Option Char :=
  if n < 0xd800 ∨ (0xdfff < n ∧ n < 0x110000) then some (Char.ofNat n) else none

/-- Model of `unicode_char` from `src/lib.rs`: read exactly `chars` bytes as hex and
convert to a character.  The length test is on bytes (`s.len()`), and
`&s[0..chars]` is a byte slice, hence the possible `crash`. -/
def unicode_char (s : Str) (chars : Nat) : Res (Char × Str) :=
  if utf8Len s < chars then .err .incompleteUnicode
  else
    match takeBytes s chars with
    | none => .crash
    | some (pre, suf) =>
      match fromStrRadix 16 pre with
      | .error e => .err (.parseIntError e)
      | .ok num =>
        match charFromU32 num with
        | none => .err (.invalidUnicode num)
        | some ch => .ok (ch, suf)

/-- The `\u{...}` branch of `escape_sequence`: `size` counts the characters
before the closing brace while `&s[0..size]` slices bytes; the consumed
remainder is what follows the brace (or nothing, if no brace exists). -/
def braceUnicode (cs2 : Str) : Res (Char × Str) :=
  match takeBytes cs2 (cs2.takeWhile (fun n => n ≠ '}')).length with
  | none => .crash
  | some (pre, _) =>
    match fromStrRadix 16 pre with
    | .error e => .err (.parseIntError e)
    | .ok num =>
      match charFromU32 num with
      | none => .err (.invalidUnicode num)
      | some ch => .ok (ch, (cs2.dropWhile (fun n => n ≠ '}')).tail)

/-- The final (octal) branch of `escape_sequence`: up to three octal digits
from the whole token `s`, or `UnknownSequence` with the first character. -/
def octalEscape (next : Char) (cs : Str) : Res (Char × Str) :=
  let count := min ((next :: cs).takeWhile (fun n => (toDigit 8 n).isSome)).length 3
  if 0 < count then
    match takeBytes (next :: cs) count with
    | none => .crash
    | some (pre, suf) =>
      match fromStrRadix 8 pre with
      | .error e => .err (.parseIntError e)
      | .ok num =>
        match charFromU32 num with
        | none => .err (.invalidUnicode num)
        | some ch => .ok (ch, suf)
  else .err (.unknownSequence next)

/-- Model of `escape_sequence` from `src/lib.rs`: decode the text immediately after a
backslash into a character plus the unconsumed remainder; the alternatives
are checked in the source's order on the first character of the token. -/
def escape_sequence : Str → Res (Char × Str)
  | [] => .err .incompleteSequence
  | 'a' :: cs => .ok ('\x07', cs)
  | 'b' :: cs => .ok ('\x08', cs)
  | 'f' :: cs => .ok ('\x0C', cs)
  | 'n' :: cs => .ok ('\n', cs)
  | 'r' :: cs => .ok ('\r', cs)
  | 't' :: cs => .ok ('\t', cs)
  | 'v' :: cs => .ok ('\x0B', cs)
  | '\\' :: cs => .ok ('\\', cs)
  | '\'' :: cs => .ok ('\'', cs)
  | '"' :: cs => .ok ('"', cs)
  | '/' :: cs => .ok ('/', cs)
  | '\r' :: cs => .ok ('\r', cs)
  | '\n' :: cs => .ok ('\n', cs)
  | 'x' :: cs => unicode_char cs 2
  | 'u' :: '{' :: cs2 => braceUnicode cs2
  | 'u' :: cs => unicode_char cs 4
  | 'U' :: cs => unicode_char cs 8
  | next :: cs => octalEscape next cs

/-- Model of `str::split('\\')`: the segments between backslashes (`n` separators give
`n + 1` segments, empties included). -/
def splitBs : Str → List Str
  | [] => [[]]
  | c :: cs =>
    if c = '\\' then [] :: splitBs cs
    else
      match splitBs cs with
      | [] => [[c]]
      | p :: ps => (c :: p) :: ps

/-- The `Unescaped` iterator state: the remaining backslash-split segments and
the optional pending raw remainder (`rem`). -/
structure Unescaped where
  split : List Str
  rem : Option Str
deriving DecidableEq, Repr

/-- Model of `Unescaped::new`: pop the first segment; it becomes the pending remainder
unless empty. -/
def Unescaped.new (s : Str) : Unescaped :=
  match splitBs s with
  | [] => ⟨[], none⟩
  | first :: rest => ⟨rest, if first = [] then none else some first⟩

/-- Outcome of one `next()` call: exhausted (`done`), a character (`val`), an
error item (`fail`) — each with the successor state — or a panic (`crash`). -/
inductive NextOut where
  | done (u : Unescaped)
  | val (c : Char) (u : Unescaped)
  | fail (e : Error) (u : Unescaped)
  | crash
deriving DecidableEq, Repr

/-- The body of `Unescaped::next` once the pending remainder is exhausted:
pull the next split segment; an empty segment means a backslash boundary. -/
def nextNoRem : List Str → NextOut
  | [] => .done ⟨[], none⟩
  | seg :: split =>
    if seg = [] then
      match split with
      | [] => .fail .incompleteSequence ⟨[], none⟩
      | seg2 :: split2 =>
        if seg2 = [] then .val '\\' ⟨split2, none⟩
        else .val '\\' ⟨split2, some seg2⟩
    else
      match escape_sequence seg with
      | .ok (ch, rem) => .val ch ⟨split, if rem = [] then none else some rem⟩
      | .err e => .fail e ⟨split, none⟩
      | .crash => .crash

/-- Model of `Unescaped::next` (the `Iterator` impl): drain the pending remainder one
character at a time, then resume backslash-based splitting. -/
def Unescaped.next (u : Unescaped) : NextOut :=
  match u.rem with
  | some (c :: rest) => .val c ⟨u.split, some rest⟩
  | some [] => nextNoRem u.split
  | none => nextNoRem u.split

/-- The `StringFragment` enum. -/
inductive StringFragment where
  | raw (s : Str)
  | escaped (c : Char)
deriving DecidableEq, Repr

/-- Outcome of one `next_fragment()` call. -/
inductive FragOut where
  | done (u : Unescaped)
  | frag (f : StringFragment) (u : Unescaped)
  | fail (e : Error) (u : Unescaped)
  | crash
deriving DecidableEq, Repr

/-- Model of `Unescaped::next_fragment`: take the whole pending remainder as a `Raw`
fragment (even when `next()` already drained it to empty), otherwise wrap the
next decoded character as `Escaped`. -/
def Unescaped.next_fragment (u : Unescaped) : FragOut :=
  match u.rem with
  | some r => .frag (.raw r) ⟨u.split, none⟩
  | none =>
    match nextNoRem u.split with
    | .done u' => .done u'
    | .val c u' => .frag (.escaped c) u'
    | .fail e u' => .fail e u'
    | .crash => .crash

/-- Model of `std::borrow::Cow<str>`, tracked by content. -/
inductive Cow where
  | borrowed (s : Str)
  | owned (s : Str)
deriving DecidableEq, Repr

/-- The text content of a `Cow`. -/
def cowContent : Cow → Str
  | .borrowed s => s
  | .owned s => s

/-- Model of `Cow<str> += &str`: an empty accumulator becomes a borrow of the
right-hand side; appending a non-empty slice to non-empty content promotes to
an owned buffer. -/
def cowAddStr (out : Cow) (s : Str) : Cow :=
  if cowContent out = [] then .borrowed s
  else if s = [] then out
  else .owned (cowContent out ++ s)

/-- Model of `Cow::to_mut().push(c)`: always promotes to an owned buffer. -/
def cowPush (out : Cow) (c : Char) : Cow :=
  .owned (cowContent out ++ [c])

/-- Result of `unescape` (`nofuel` is an artifact of the fuelled loop below;
it is proved unreachable for the fuel `unescape` supplies). -/
inductive UnescapeOut where
  | ok (cw : Cow)
  | err (e : Error)
  | crash
  | nofuel
deriving DecidableEq, Repr

/-- Weight of an iterator state; every `next`/`next_fragment` step that
produces an item strictly decreases it. -/
def weight (u : Unescaped) : Nat :=
  (u.split.map (fun s => s.length + 1)).sum +
    (match u.rem with | none => 0 | some r => r.length + 1)

/-- The `while let` loop of `unescape`, with explicit fuel: fold each
fragment into the `Cow` accumulator, stopping at the first error. -/
def unescapeGo : Nat → Unescaped → Cow → UnescapeOut
  | 0, _, _ => .nofuel
  | fuel + 1, u, out =>
    match u.next_fragment with
    | .crash => .crash
    | .done _ => .ok out
    | .fail e _ => .err e
    | .frag (.raw s) u' => unescapeGo fuel u' (cowAddStr out s)
    | .frag (.escaped c) u' => unescapeGo fuel u' (cowPush out c)

/-- Model of `unescape` from `src/lib.rs`: drive `next_fragment` to completion starting
from `Cow::default()` (an empty borrow).  The supplied fuel always suffices
(`unescapeGo_fuel_enough` below). -/
def unescape (s : Str) : UnescapeOut :=
  unescapeGo (weight (Unescaped.new s) + 1) (Unescaped.new s) (.borrowed [])

/-- The items a character of the pending remainder contributes to the
iteration trace. -/
def runRem : Option Str → List (Except Error Char)
  | none => []
  | some r => r.map .ok

/-- The full character-level iteration trace of the remaining split segments:
`none` when some step panics, otherwise the list of `Ok`/`Err` items yielded
before exhaustion.  `runChars_next` below proves this is exactly what repeated
`Unescaped.next` calls produce. -/
def runSplit : List Str → Option (List (Except Error Char))
  | [] => some []
  | seg :: split =>
    if seg = [] then
      match split with
      | [] => some [.error .incompleteSequence]
      | seg2 :: split2 => (runSplit split2).map (fun t => .ok '\\' :: seg2.map .ok ++ t)
    else
      match escape_sequence seg with
      | .ok (ch, rem) => (runSplit split).map (fun t => .ok ch :: rem.map .ok ++ t)
      | .err e => (runSplit split).map (fun t => .error e :: t)
      | .crash => none

/-- The iteration trace from an arbitrary iterator state. -/
def runChars (u : Unescaped) : Option (List (Except Error Char)) :=
  (runSplit u.split).map (fun t => runRem u.rem ++ t)

/-! ### Spec-side notions used to state the claims -/

/-- The successor state of one `next_fragment` call (`none` on panic). -/
def fragSucc (u : Unescaped) : Option Unescaped :=
  match u.next_fragment with
  | .done u' => some u'
  | .frag _ u' => some u'
  | .fail _ u' => some u'
  | .crash => none

/-- States reachable from `u` by repeated `next_fragment` calls. -/
def FragReach (u v : Unescaped) : Prop :=
  Relation.ReflTransGen (fun a b => fragSucc a = some b) u v

/-- The successor state of one character-level `next` call (`none` on
panic). -/
def nextSucc (u : Unescaped) : Option Unescaped :=
  match u.next with
  | .done u' => some u'
  | .val _ u' => some u'
  | .fail _ u' => some u'
  | .crash => none

/-- States reachable from `u` by any interleaving of `next` and
`next_fragment` calls. -/
def IterReach (u v : Unescaped) : Prop :=
  Relation.ReflTransGen (fun a b => fragSucc a = some b ∨ nextSucc a = some b) u v

/-- The invariant maintained by the iterator: the pending remainder, when
present, is non-empty and backslash-free, and so is every remaining
segment. -/
def RemInv (u : Unescaped) : Prop :=
  (∀ x, u.rem = some x → x ≠ [] ∧ '\\' ∉ x) ∧ ∀ seg ∈ u.split, '\\' ∉ seg

/-- The weaker invariant that survives character-level `next` calls: the
pending remainder (possibly partially drained by `next`, possibly empty) and
every remaining segment are backslash-free. -/
def WeakInv (u : Unescaped) : Prop :=
  (∀ x, u.rem = some x → '\\' ∉ x) ∧ ∀ seg ∈ u.split, '\\' ∉ seg

/-- Number of backslashes at the end of the input. -/
def trailingBs (s : Str) : Nat := (s.reverse.takeWhile (fun c => c = '\\')).length

/-- The input ends in an unmatched (lone) backslash: its trailing run of
backslashes has odd length. -/
def OddTrailing (s : Str) : Prop := trailingBs s % 2 = 1

instance (s : Str) : Decidable (OddTrailing s) :=
  inferInstanceAs (Decidable (trailingBs s % 2 = 1))

/-- Whether the remaining segment list dooms the iteration to reach the
final-backslash case: traversing it (consuming two segments at an empty
segment, one otherwise) ends exactly on a final empty segment. -/
def doomF : List Str → Bool
  | [] => false
  | [seg] => seg.isEmpty
  | seg :: seg2 :: rest => if seg.isEmpty then doomF rest else doomF (seg2 :: rest)

/-- Lowercase hexadecimal digits of `n`, most significant first (the format
Rust's `EscapeUnicode` prints inside `\u{...}`). -/
def hexDigits (n : Nat) : Str :=
  if n < 16 then [Nat.digitChar n]
  else hexDigits (n / 16) ++ [Nat.digitChar (n % 16)]
termination_by n
decreasing_by
  exact Nat.div_lt_self (by omega) (by norm_num)

/-- Modelled from the spec: the hypothetical canonical escaper of the
round-trip law — backslash sequences for the control/quote/backslash
characters, `\u{...}` hex escapes for the other non-printable or non-ASCII
characters, and printable ASCII left as-is (the format of Rust's
`char::escape_default`, which the repository's round-trip test feeds to
`unescape`). -/
def escapeChar (c : Char) : Str :=
  if c = '\t' then ['\\', 't']
  else if c = '\r' then ['\\', 'r']
  else if c = '\n' then ['\\', 'n']
  else if c = '\\' then ['\\', '\\']
  else if c = '\'' then ['\\', '\'']
  else if c = '"' then ['\\', '"']
  else if 0x20 ≤ c.toNat ∧ c.toNat ≤ 0x7e then [c]
  else '\\' :: 'u' :: '{' :: (hexDigits c.toNat ++ ['}'])

/-- Modelled from the spec: the canonical escaper applied to a whole text. -/
def escape (s : Str) : Str := (s.map escapeChar).flatten

/-! ### Basic facts about the byte-level primitives -/

theorem charUtf8Size_pos (c : Char) : 1 ≤ charUtf8Size c := by
  unfold charUtf8Size
  split_ifs <;> norm_num

theorem utf8Len_cons (c : Char) (s : Str) :
    utf8Len (c :: s) = charUtf8Size c + utf8Len s := by
  simp [utf8Len]

theorem utf8Len_eq_zero {s : Str} (h : utf8Len s = 0) : s = [] := by
  cases s with
  | nil => rfl
  | cons c cs =>
    rw [utf8Len_cons] at h
    have := charUtf8Size_pos c
    omega

theorem takeBytes_eq {s : Str} {k : Nat} {p q : Str}
    (h : takeBytes s k = some (p, q)) : p ++ q = s ∧ utf8Len p = k := by
  induction s generalizing k p q with
  | nil =>
    cases k with
    | zero =>
      simp only [takeBytes, Option.some.injEq, Prod.mk.injEq] at h
      simp [← h.1, ← h.2, utf8Len]
    | succ k => simp [takeBytes] at h
  | cons c cs ih =>
    cases k with
    | zero =>
      simp only [takeBytes, Option.some.injEq, Prod.mk.injEq] at h
      simp [← h.1, ← h.2, utf8Len]
    | succ k =>
      simp only [takeBytes] at h
      split_ifs at h with hsz
      split at h
      · exact absurd h (by simp)
      next p' q' htb =>
        simp only [Option.some.injEq, Prod.mk.injEq] at h
        obtain ⟨hp, hq⟩ := h
        have := ih htb
        subst hp hq
        constructor
        · simp [this.1]
        · rw [utf8Len_cons, this.2]; omega

theorem takeBytes_ne_nil {s : Str} {k : Nat} {p q : Str}
    (h : takeBytes s k = some (p, q)) (hk : 0 < k) : p ≠ [] := by
  intro hp
  have := (takeBytes_eq h).2
  rw [hp] at this
  simp [utf8Len] at this
  omega

/-! ### The decoder consumes at least one character and returns a suffix -/

theorem unicode_char_ok {s : Str} {k : Nat} {c : Char} {r : Str}
    (h : unicode_char s k = .ok (c, r)) (hk : 0 < k) :
    r <:+ s ∧ r.length < s.length := by
  unfold unicode_char at h
  split_ifs at h
  split at h
  · exact absurd h (by simp)
  next pre suf htb =>
    have heq := takeBytes_eq htb
    have hne := takeBytes_ne_nil htb hk
    split at h
    · exact absurd h (by simp)
    next num hfs =>
      split at h
      · exact absurd h (by simp)
      next ch hcc =>
        simp only [Res.ok.injEq, Prod.mk.injEq] at h
        obtain ⟨-, hr⟩ := h
        subst hr
        refine ⟨⟨pre, heq.1⟩, ?_⟩
        have hl : pre.length + suf.length = s.length := by
          rw [← heq.1]; simp
        have : 1 ≤ pre.length := by
          cases pre with
          | nil => exact absurd rfl hne
          | cons _ _ => simp
        omega

theorem suffix_cons (c : Char) (s : Str) : s <:+ c :: s := ⟨[c], rfl⟩

theorem braceUnicode_ok {cs2 : Str} {c : Char} {r : Str}
    (h : braceUnicode cs2 = .ok (c, r)) : r <:+ cs2 ∧ r.length ≤ cs2.length := by
  unfold braceUnicode at h
  split at h
  · exact absurd h (by simp)
  next pre suf htb =>
    split at h
    · exact absurd h (by simp)
    next num hfs =>
      split at h
      · exact absurd h (by simp)
      next ch hcc =>
        simp only [Res.ok.injEq, Prod.mk.injEq] at h
        obtain ⟨-, hr⟩ := h
        subst hr
        refine ⟨(List.tail_suffix _).trans (List.dropWhile_suffix _), ?_⟩
        have hd := (List.dropWhile_suffix (l := cs2) (fun n => n ≠ '}')).length_le
        have ht := List.length_tail (List.dropWhile (fun n => n ≠ '}') cs2)
        omega

theorem octalEscape_ok {next : Char} {cs : Str} {c : Char} {r : Str}
    (h : octalEscape next cs = .ok (c, r)) :
    r <:+ next :: cs ∧ r.length < (next :: cs).length := by
  simp only [octalEscape] at h
  split_ifs at h with hcount
  · split at h
    · exact absurd h (by simp)
    next pre suf htb =>
      have heq := takeBytes_eq htb
      have hne := takeBytes_ne_nil htb hcount
      split at h
      · exact absurd h (by simp)
      next num hfs =>
        split at h
        · exact absurd h (by simp)
        next ch hcc =>
          simp only [Res.ok.injEq, Prod.mk.injEq] at h
          obtain ⟨-, hr⟩ := h
          subst hr
          refine ⟨⟨pre, heq.1⟩, ?_⟩
          have hl : pre.length + suf.length = (next :: cs).length := by
            rw [← heq.1]; simp
          have : 1 ≤ pre.length := by
            cases pre with
            | nil => exact absurd rfl hne
            | cons _ _ => simp
          omega

theorem escape_sequence_ok {s : Str} {c : Char} {r : Str}
    (h : escape_sequence s = .ok (c, r)) : r <:+ s ∧ r.length < s.length := by
  unfold escape_sequence at h
  split at h
  · exact absurd h (by simp)
  all_goals first
  | (simp only [Res.ok.injEq, Prod.mk.injEq] at h
     obtain ⟨-, hr⟩ := h
     subst hr
     exact ⟨suffix_cons _ _, by simp⟩)
  | (have hu := unicode_char_ok h (by norm_num)
     exact ⟨hu.1.trans (suffix_cons _ _),
       by have := hu.2; simp only [List.length_cons]; omega⟩)
  | (have hb := braceUnicode_ok h
     exact ⟨(hb.1.trans (suffix_cons _ _)).trans (suffix_cons _ _),
       by have := hb.2; simp only [List.length_cons]; omega⟩)
  | (exact octalEscape_ok h)

/-! ### Facts about the backslash splitter -/

theorem splitBs_ne_nil (s : Str) : splitBs s ≠ [] := by
  cases s with
  | nil => simp [splitBs]
  | cons c cs =>
    simp only [splitBs]
    split_ifs
    · simp
    · split <;> simp

theorem splitBs_no_bs {s seg : Str} (hseg : seg ∈ splitBs s) : '\\' ∉ seg := by
  induction s generalizing seg with
  | nil =>
    simp only [splitBs, List.mem_singleton] at hseg
    simp [hseg]
  | cons c cs ih =>
    simp only [splitBs] at hseg
    split_ifs at hseg with hc
    · rcases List.mem_cons.1 hseg with h1 | h2
      · simp [h1]
      · exact ih h2
    · cases hsp : splitBs cs with
      | nil => exact absurd hsp (splitBs_ne_nil cs)
      | cons p ps =>
        rw [hsp] at hseg
        rcases List.mem_cons.1 hseg with h1 | h2
        · subst h1
          have hp : '\\' ∉ p := ih (by rw [hsp]; exact List.mem_cons_self p ps)
          simp only [List.mem_cons]
          rintro (rfl | hm)
          · exact hc rfl
          · exact hp hm
        · exact ih (by rw [hsp]; exact List.mem_cons_of_mem p h2)

theorem splitBs_of_no_bs {s : Str} (h : '\\' ∉ s) : splitBs s = [s] := by
  induction s with
  | nil => simp [splitBs]
  | cons c cs ih =>
    simp only [List.mem_cons] at h
    push_neg at h
    have hc : ¬c = '\\' := fun heq => h.1 heq.symm
    simp [splitBs, hc, ih h.2]

theorem splitBs_cons_bs (s : Str) : splitBs ('\\' :: s) = [] :: splitBs s := by
  simp [splitBs]

theorem splitBs_cons_ne {c : Char} (hc : c ≠ '\\') (s : Str) {h : Str} {t : List Str}
    (hsp : splitBs s = h :: t) : splitBs (c :: s) = (c :: h) :: t := by
  simp [splitBs, hc, hsp]

theorem splitBs_append_no_bs {b : Str} (hb : '\\' ∉ b) (s : Str) {h : Str}
    {t : List Str} (hsp : splitBs s = h :: t) :
    splitBs (b ++ s) = (b ++ h) :: t := by
  induction b with
  | nil => simpa using hsp
  | cons x b' ih =>
    simp only [List.mem_cons] at hb
    push_neg at hb
    have := ih hb.2
    simpa using splitBs_cons_ne (Ne.symm hb.1) (b' ++ s) this

/-! ### Every produced item strictly decreases the state weight -/

theorem nextNoRem_val_weight {split : List Str} {c : Char} {u' : Unescaped}
    (h : nextNoRem split = .val c u') : weight u' < weight ⟨split, none⟩ := by
  cases split with
  | nil => simp [nextNoRem] at h
  | cons seg sp =>
    by_cases hseg : seg = []
    · subst hseg
      cases sp with
      | nil => simp [nextNoRem] at h
      | cons seg2 sp2 =>
        by_cases h2 : seg2 = []
        · subst h2
          simp [nextNoRem] at h
          obtain ⟨-, rfl⟩ := h
          simp only [weight, List.map_cons, List.sum_cons, List.length_nil]
          omega
        · simp [nextNoRem, h2] at h
          obtain ⟨-, rfl⟩ := h
          simp only [weight, List.map_cons, List.sum_cons, List.length_nil]
          omega
    · cases hes : escape_sequence seg with
      | ok pr =>
        obtain ⟨ch, rem⟩ := pr
        simp [nextNoRem, hseg, hes] at h
        obtain ⟨-, rfl⟩ := h
        have hlen := (escape_sequence_ok hes).2
        by_cases hrem : rem = [] <;>
          simp only [weight, hrem, eq_self_iff_true, if_true, if_false,
            List.map_cons, List.sum_cons, List.length_nil] <;>
          omega
      | err e0 => simp [nextNoRem, hseg, hes] at h
      | crash => simp [nextNoRem, hseg, hes] at h

theorem next_fragment_weight {u u' : Unescaped} {f : StringFragment}
    (h : u.next_fragment = .frag f u') : weight u' < weight u := by
  obtain ⟨split, rem⟩ := u
  cases rem with
  | some r =>
    simp only [Unescaped.next_fragment, FragOut.frag.injEq] at h
    rw [← h.2]
    simp [weight]
  | none =>
    simp only [Unescaped.next_fragment] at h
    split at h
    · simp at h
    · next c u'' hval =>
      simp only [FragOut.frag.injEq] at h
      rw [← h.2]
      exact nextNoRem_val_weight hval
    · simp at h
    · simp at h

/-! ### `runChars` is the trace of repeated `next` calls -/

theorem runSplit_nil : runSplit [] = some [] := rfl

theorem runSplit_empty_last : runSplit [[]] = some [.error .incompleteSequence] := by
  conv_lhs => rw [runSplit.eq_def]
  simp

theorem runSplit_empty_cons (seg2 : Str) (sp2 : List Str) :
    runSplit ([] :: seg2 :: sp2) =
      (runSplit sp2).map (fun t => .ok '\\' :: seg2.map .ok ++ t) := by
  conv_lhs => rw [runSplit.eq_def]
  simp

theorem runSplit_seg_ok {seg : Str} (hseg : seg ≠ []) {ch : Char} {rem : Str}
    (hes : escape_sequence seg = .ok (ch, rem)) (sp : List Str) :
    runSplit (seg :: sp) =
      (runSplit sp).map (fun t => .ok ch :: rem.map .ok ++ t) := by
  conv_lhs => rw [runSplit.eq_def]
  simp [hseg, hes]

theorem runSplit_seg_err {seg : Str} (hseg : seg ≠ []) {e : Error}
    (hes : escape_sequence seg = .err e) (sp : List Str) :
    runSplit (seg :: sp) = (runSplit sp).map (fun t => .error e :: t) := by
  conv_lhs => rw [runSplit.eq_def]
  simp [hseg, hes]

theorem runSplit_seg_crash {seg : Str} (hseg : seg ≠ [])
    (hes : escape_sequence seg = .crash) (sp : List Str) :
    runSplit (seg :: sp) = none := by
  conv_lhs => rw [runSplit.eq_def]
  simp [hseg, hes]

theorem runChars_some_nil : runChars ⟨[], none⟩ = some [] := by
  simp [runChars, runSplit_nil, runRem]

theorem runChars_rem_nil (split : List Str) :
    runChars ⟨split, some []⟩ = runChars ⟨split, none⟩ := by
  simp [runChars, runRem]

theorem runChars_nextNoRem (split : List Str) :
    runChars ⟨split, none⟩ =
      match nextNoRem split with
      | .done _ => some []
      | .val c u' => (runChars u').map (fun t => .ok c :: t)
      | .fail e u' => (runChars u').map (fun t => .error e :: t)
      | .crash => none := by
  cases split with
  | nil => simp [nextNoRem, runChars, runSplit_nil, runRem]
  | cons seg sp =>
    by_cases hseg : seg = []
    · subst hseg
      cases sp with
      | nil => simp [nextNoRem, runChars, runSplit_empty_last, runSplit_nil, runRem]
      | cons seg2 sp2 =>
        by_cases h2 : seg2 = []
        · subst h2
          cases hrs : runSplit sp2 <;>
            simp [nextNoRem, runChars, runSplit_empty_cons, runRem, hrs]
        · cases hrs : runSplit sp2 <;>
            simp [nextNoRem, runChars, runSplit_empty_cons, runRem, hrs, h2]
    · cases hes : escape_sequence seg with
      | ok pr =>
        obtain ⟨ch, rem⟩ := pr
        rw [runChars, runSplit_seg_ok hseg hes sp]
        by_cases hrem : rem = [] <;>
          cases hrs : runSplit sp <;>
            simp [nextNoRem, runChars, runRem, hrs, hseg, hes, hrem]
      | err e0 =>
        rw [runChars, runSplit_seg_err hseg hes sp]
        cases hrs : runSplit sp <;>
          simp [nextNoRem, runChars, runRem, hrs, hseg, hes]
      | crash =>
        rw [runChars, runSplit_seg_crash hseg hes sp]
        simp [nextNoRem, hseg, hes]

/-- Fact: `runChars` is exactly the trace of the iterator: each `next` outcome is
the head of the trace, and a panic makes the trace `none`. -/
theorem runChars_next (u : Unescaped) :
    runChars u =
      match u.next with
      | .done _ => some []
      | .val c u' => (runChars u').map (fun t => .ok c :: t)
      | .fail e u' => (runChars u').map (fun t => .error e :: t)
      | .crash => none := by
  obtain ⟨split, rem⟩ := u
  cases rem with
  | none => simpa [Unescaped.next] using runChars_nextNoRem split
  | some r =>
    cases r with
    | nil =>
      rw [runChars_rem_nil]
      simpa [Unescaped.next] using runChars_nextNoRem split
    | cons c0 r0 =>
      cases hrs : runSplit split <;>
        simp [Unescaped.next, runChars, runRem, hrs]

/-! ### The materializer accumulates exactly the trace -/

theorem cowContent_addStr (out : Cow) (s : Str) :
    cowContent (cowAddStr out s) = cowContent out ++ s := by
  unfold cowAddStr
  split_ifs with h1 h2
  · rw [h1]
    simp [cowContent]
  · rw [h2]
    simp
  · rfl

theorem cowContent_push (out : Cow) (c : Char) :
    cowContent (cowPush out c) = cowContent out ++ [c] := rfl

theorem map_ok_split {r l : Str} {t : List (Except Error Char)}
    (h : r.map Except.ok ++ t = l.map Except.ok) :
    ∃ l2, l = r ++ l2 ∧ t = l2.map Except.ok := by
  induction r generalizing l with
  | nil =>
    refine ⟨l, by simp, ?_⟩
    simpa using h
  | cons x r' ih =>
    cases l with
    | nil => simp at h
    | cons y l' =>
      simp only [List.map_cons, List.cons_append, List.cons.injEq] at h
      obtain ⟨hxy, h2⟩ := h
      obtain ⟨l2, hl, ht⟩ := ih h2
      exact ⟨l2, by simp [hl, Except.ok.inj hxy], ht⟩

theorem unescapeGo_ok {fuel : Nat} :
    ∀ {u : Unescaped} {out : Cow} {l : Str}, weight u < fuel →
      runChars u = some (l.map .ok) →
      ∃ cw, unescapeGo fuel u out = .ok cw ∧
        cowContent cw = cowContent out ++ l := by
  induction fuel with
  | zero => intro u out l h _; omega
  | succ fuel ih =>
    intro u out l hw hrc
    obtain ⟨split, rem⟩ := u
    cases rem with
    | some r =>
      have hnf : Unescaped.next_fragment ⟨split, some r⟩ =
          .frag (.raw r) ⟨split, none⟩ := by
        simp [Unescaped.next_fragment]
      simp only [runChars, runRem] at hrc
      obtain ⟨t, hst, hmt⟩ := Option.map_eq_some'.1 hrc
      obtain ⟨l2, hl, ht⟩ := map_ok_split hmt
      have hw' : weight ⟨split, none⟩ < fuel := by
        have := next_fragment_weight hnf
        omega
      have hrc2 : runChars ⟨split, none⟩ = some (l2.map .ok) := by
        simp [runChars, runRem, hst, ht]
      obtain ⟨cw, hgo, hcw⟩ := @ih ⟨split, none⟩ (cowAddStr out r) l2 hw' hrc2
      refine ⟨cw, ?_, ?_⟩
      · simp only [unescapeGo, hnf]
        exact hgo
      · rw [hcw, cowContent_addStr, hl]
        simp
    | none =>
      have htr := runChars_nextNoRem split
      cases hnn : nextNoRem split with
      | done u' =>
        rw [hnn] at htr
        rw [htr] at hrc
        have hl : l = [] := by
          cases l with
          | nil => rfl
          | cons a l' => simp at hrc
        have hnf : Unescaped.next_fragment ⟨split, none⟩ = .done u' := by
          simp [Unescaped.next_fragment, hnn]
        refine ⟨out, ?_, by simp [hl]⟩
        simp only [unescapeGo, hnf]
      | val c u' =>
        rw [hnn] at htr
        rw [htr] at hrc
        obtain ⟨t, hst, hmt⟩ := Option.map_eq_some'.1 hrc
        cases l with
        | nil => simp at hmt
        | cons a l' =>
          simp only [List.map_cons, List.cons.injEq] at hmt
          obtain ⟨hac, ht⟩ := hmt
          have hca : c = a := Except.ok.inj hac
          subst hca
          have hnf : Unescaped.next_fragment ⟨split, none⟩ =
              .frag (.escaped c) u' := by
            simp [Unescaped.next_fragment, hnn]
          have hw' : weight u' < fuel := by
            have := nextNoRem_val_weight hnn
            omega
          obtain ⟨cw, hgo, hcw⟩ := @ih u' (cowPush out c) l' hw' (by rw [hst, ht])
          refine ⟨cw, ?_, ?_⟩
          · simp only [unescapeGo, hnf]
            exact hgo
          · rw [hcw, cowContent_push]
            simp
      | fail e u' =>
        rw [hnn] at htr
        rw [htr] at hrc
        obtain ⟨t, _, hmt⟩ := Option.map_eq_some'.1 hrc
        cases l with
        | nil => simp at hmt
        | cons a l' =>
          simp only [List.map_cons, List.cons.injEq] at hmt
          exact absurd hmt.1 (by simp)
      | crash =>
        rw [hnn] at htr
        rw [htr] at hrc
        simp at hrc

/-! ### Inversion: exhaustion only happens in the terminal state -/

theorem nextNoRem_done {split : List Str} {u' : Unescaped}
    (h : nextNoRem split = .done u') : split = [] ∧ u' = ⟨[], none⟩ := by
  cases split with
  | nil =>
    refine ⟨rfl, ?_⟩
    simpa [nextNoRem] using h.symm
  | cons seg sp =>
    exfalso
    by_cases hseg : seg = []
    · subst hseg
      cases sp with
      | nil => simp [nextNoRem] at h
      | cons seg2 sp2 =>
        by_cases h2 : seg2 = [] <;> simp [nextNoRem, h2] at h
    · cases hes : escape_sequence seg <;> simp [nextNoRem, hseg, hes] at h

/-! ### Claim C1 -/

/-- C1, counterexample: on the input `\q\n` the first `next()` yields the
error `UnknownSequence('q')`, and the very next call still yields a value
(`Ok('\n')`), so the iterator is not terminal after an error. -/
theorem c1_counterexample :
    (Unescaped.new ['\\', 'q', '\\', 'n']).next =
      .fail (.unknownSequence 'q') ⟨[['n']], none⟩ ∧
    Unescaped.next ⟨[['n']], none⟩ = .val '\n' ⟨[], none⟩ := by
  decide

/-- C1 (amended): once `next()` or `next_fragment()` has reported exhaustion
(`None`), every subsequent call reports exhaustion again — the iterator is
fused on exhaustion.  (After an error item, by contrast, iteration may
continue and produce further characters or fragments.) -/
theorem c1_fused_after_none {u u' : Unescaped}
    (h : u.next = .done u' ∨ u.next_fragment = .done u') :
    u'.next = .done u' ∧ u'.next_fragment = .done u' := by
  have hu' : u' = ⟨[], none⟩ := by
    obtain ⟨split, rem⟩ := u
    rcases h with h | h
    · cases rem with
      | some r =>
        cases r with
        | nil => exact (nextNoRem_done (by simpa [Unescaped.next] using h)).2
        | cons c0 r0 => simp [Unescaped.next] at h
      | none => exact (nextNoRem_done (by simpa [Unescaped.next] using h)).2
    · cases rem with
      | some r => simp [Unescaped.next_fragment] at h
      | none =>
        cases hnn : nextNoRem split with
        | done u'' =>
          have h2 := (nextNoRem_done hnn).2
          simp only [Unescaped.next_fragment, hnn, FragOut.done.injEq] at h
          rw [← h]
          exact h2
        | val c u'' => simp [Unescaped.next_fragment, hnn] at h
        | fail e u'' => simp [Unescaped.next_fragment, hnn] at h
        | crash => simp [Unescaped.next_fragment, hnn] at h
  subst hu'
  exact ⟨by simp [Unescaped.next, nextNoRem], by simp [Unescaped.next_fragment, nextNoRem]⟩

/-- C1, witness: the exhausted iterator of the empty input stays exhausted. -/
theorem c1_fused_after_none_witness :
    (Unescaped.new []).next = .done ⟨[], none⟩ ∧
    Unescaped.next ⟨[], none⟩ = .done ⟨[], none⟩ ∧
    Unescaped.next_fragment ⟨[], none⟩ = .done ⟨[], none⟩ :=
  ⟨by decide,
    (@c1_fused_after_none (Unescaped.new []) ⟨[], none⟩ (Or.inl (by decide))).1,
    (@c1_fused_after_none (Unescaped.new []) ⟨[], none⟩ (Or.inl (by decide))).2⟩

/-! ### Claim C2 -/

/-- C2, counterexample: after `\x` a single character remains (fewer than
the required 2), yet the error is a parse error, not `IncompleteUnicode`,
because the length test counts bytes and `é` is two bytes long. -/
theorem c2_counterexample :
    escape_sequence ['x', 'é'] = .err (.parseIntError .invalidDigit) ∧
    escape_sequence ['x', 'é'] ≠ .err .incompleteUnicode := by
  decide

/-- C2 (amended): for the fixed-width hex escapes `\x`, `\u`, `\U`, if fewer
than the required number of BYTES (2, 4, 8 — UTF-8 length, as `str::len`
counts) remain after the escape letter, decoding fails with
`IncompleteUnicode`. -/
theorem c2_incomplete_unicode_on_short_bytes (s : Str) :
    (utf8Len s < 2 → escape_sequence ('x' :: s) = .err .incompleteUnicode) ∧
    (s.head? ≠ some '{' → utf8Len s < 4 →
      escape_sequence ('u' :: s) = .err .incompleteUnicode) ∧
    (utf8Len s < 8 → escape_sequence ('U' :: s) = .err .incompleteUnicode) := by
  refine ⟨fun h => ?_, fun hbr h => ?_, fun h => ?_⟩
  · have hx : escape_sequence ('x' :: s) = unicode_char s 2 := rfl
    rw [hx]
    unfold unicode_char
    rw [if_pos h]
  · cases s with
    | nil =>
      have hu : escape_sequence ['u'] = unicode_char [] 4 := rfl
      rw [hu]
      decide
    | cons c0 s1 =>
      have hc0 : ¬c0 = '{' := fun heq => hbr (by rw [heq]; rfl)
      have hu : escape_sequence ('u' :: c0 :: s1) = unicode_char (c0 :: s1) 4 := by
        simp [escape_sequence, hc0]
      rw [hu]
      unfold unicode_char
      rw [if_pos h]
  · have hU : escape_sequence ('U' :: s) = unicode_char s 8 := rfl
    rw [hU]
    unfold unicode_char
    rw [if_pos h]

/-- C2, witness: `\x1` at end of input fails with `IncompleteUnicode`. -/
theorem c2_incomplete_unicode_witness :
    utf8Len ['1'] < 2 ∧ escape_sequence ['x', '1'] = .err .incompleteUnicode :=
  ⟨by decide, (c2_incomplete_unicode_on_short_bytes ['1']).1 (by decide)⟩

/-! ### Claim C3 -/

/-- C3: the library is not total — `unescape` on the three-character input
`\x€` panics.  `unicode_char` checks `s.len() < 2` against the byte length
(`€` is three bytes, so the check passes) and then byte-slices `&s[0..2]`,
whose upper boundary falls inside the character `€`; slicing a `str` at a
non-character boundary panics in Rust.  The embedding makes the panic an
explicit `crash` outcome. -/
theorem c3_unescape_panics : unescape ['\\', 'x', '€'] = .crash := by decide

/-! ### Claim C4 -/

/-- C4, counterexample: on input `a`, one `next()` call drains the raw run;
the following `next_fragment()` then yields the EMPTY raw fragment
`Raw("")`, so under interleaving a `Raw` fragment need not be non-empty. -/
theorem c4_counterexample :
    (Unescaped.new ['a']).next = .val 'a' ⟨[], some []⟩ ∧
    Unescaped.next_fragment ⟨[], some []⟩ = .frag (.raw []) ⟨[], none⟩ := by
  decide

theorem RemInv_new (s : Str) : RemInv (Unescaped.new s) := by
  have hmem : ∀ seg ∈ splitBs s, '\\' ∉ seg := fun _ h => splitBs_no_bs h
  cases hsp : splitBs s with
  | nil => exact absurd hsp (splitBs_ne_nil s)
  | cons first rest =>
    have hnew : Unescaped.new s = ⟨rest, if first = [] then none else some first⟩ := by
      unfold Unescaped.new
      rw [hsp]
    rw [hnew]
    constructor
    · intro x hx
      by_cases h1 : first = []
      · simp [h1] at hx
      · simp only [if_neg h1, Option.some.injEq] at hx
        subst hx
        exact ⟨h1, hmem first (by rw [hsp]; exact List.mem_cons_self _ _)⟩
    · intro seg hseg
      exact hmem seg (by rw [hsp]; exact List.mem_cons_of_mem _ hseg)

theorem RemInv_step {u u' : Unescaped} (hinv : RemInv u)
    (hstep : fragSucc u = some u') : RemInv u' := by
  obtain ⟨split, rem⟩ := u
  cases rem with
  | some r =>
    have : u' = ⟨split, none⟩ := by
      simpa [fragSucc, Unescaped.next_fragment] using hstep.symm
    subst this
    exact ⟨fun x hx => by simp at hx, fun seg hseg => hinv.2 seg hseg⟩
  | none =>
    simp only [fragSucc, Unescaped.next_fragment] at hstep
    cases hnn : nextNoRem split with
    | done u'' =>
      rw [hnn] at hstep
      simp only [Option.some.injEq] at hstep
      subst hstep
      rw [(nextNoRem_done hnn).2]
      exact ⟨fun x hx => by simp at hx, fun seg hseg => by simp at hseg⟩
    | val c u'' =>
      rw [hnn] at hstep
      simp only [Option.some.injEq] at hstep
      subst hstep
      cases split with
      | nil => simp [nextNoRem] at hnn
      | cons seg sp =>
        have hsegs : ∀ t ∈ sp, '\\' ∉ t :=
          fun t ht => hinv.2 t (List.mem_cons_of_mem _ ht)
        by_cases hseg : seg = []
        · subst hseg
          cases sp with
          | nil => simp [nextNoRem] at hnn
          | cons seg2 sp2 =>
            have hsp2 : ∀ t ∈ sp2, '\\' ∉ t :=
              fun t ht => hsegs t (List.mem_cons_of_mem _ ht)
            by_cases h2 : seg2 = []
            · subst h2
              simp only [nextNoRem, List.isEmpty_nil, if_true, reduceIte,
                NextOut.val.injEq] at hnn
              obtain ⟨-, rfl⟩ := hnn
              exact ⟨fun x hx => by simp at hx, hsp2⟩
            · simp [nextNoRem, h2] at hnn
              obtain ⟨-, rfl⟩ := hnn
              refine ⟨fun x hx => ?_, hsp2⟩
              simp only [Option.some.injEq] at hx
              subst hx
              exact ⟨h2, hsegs seg2 (List.mem_cons_self _ _)⟩
        · cases hes : escape_sequence seg with
          | ok pr =>
            obtain ⟨ch, rem2⟩ := pr
            simp [nextNoRem, hseg, hes] at hnn
            obtain ⟨-, rfl⟩ := hnn
            refine ⟨fun x hx => ?_, hsegs⟩
            by_cases hr2 : rem2 = []
            · simp [hr2] at hx
            · simp only [if_neg hr2, Option.some.injEq] at hx
              subst hx
              refine ⟨hr2, fun hmem => ?_⟩
              have hsub := (escape_sequence_ok hes).1.sublist.subset hmem
              exact hinv.2 seg (List.mem_cons_self _ _) hsub
          | err e0 => simp [nextNoRem, hseg, hes] at hnn
          | crash => simp [nextNoRem, hseg, hes] at hnn
    | fail e u'' =>
      rw [hnn] at hstep
      simp only [Option.some.injEq] at hstep
      subst hstep
      cases split with
      | nil => simp [nextNoRem] at hnn
      | cons seg sp =>
        have hsegs : ∀ t ∈ sp, '\\' ∉ t :=
          fun t ht => hinv.2 t (List.mem_cons_of_mem _ ht)
        by_cases hseg : seg = []
        · subst hseg
          cases sp with
          | nil =>
            simp only [nextNoRem, NextOut.fail.injEq] at hnn
            obtain ⟨-, rfl⟩ := hnn
            exact ⟨fun x hx => by simp at hx, fun t ht => by simp at ht⟩
          | cons seg2 sp2 =>
            by_cases h2 : seg2 = [] <;> simp [nextNoRem, h2] at hnn
        · cases hes : escape_sequence seg with
          | ok pr => obtain ⟨ch, rem2⟩ := pr; simp [nextNoRem, hseg, hes] at hnn
          | err e0 =>
            simp [nextNoRem, hseg, hes] at hnn
            obtain ⟨-, rfl⟩ := hnn
            exact ⟨fun x hx => by simp at hx, hsegs⟩
          | crash => simp [nextNoRem, hseg, hes] at hnn
    | crash =>
      rw [hnn] at hstep
      simp at hstep

theorem RemInv_reach {u v : Unescaped} (h : FragReach u v) (hu : RemInv u) :
    RemInv v := by
  induction h with
  | refl => exact hu
  | tail _ hstep ih => exact RemInv_step ih hstep

theorem nextNoRem_states {split : List Str} (hsegs : ∀ seg ∈ split, '\\' ∉ seg)
    {u' : Unescaped}
    (h : (∃ c, nextNoRem split = .val c u') ∨ (∃ e, nextNoRem split = .fail e u') ∨
      nextNoRem split = .done u') : WeakInv u' := by
  cases split with
  | nil =>
    rcases h with ⟨c, h⟩ | ⟨e, h⟩ | h
    · simp [nextNoRem] at h
    · simp [nextNoRem] at h
    · rw [(nextNoRem_done h).2]
      exact ⟨fun x hx => by simp at hx, fun seg hseg => by simp at hseg⟩
  | cons seg sp =>
    have hsp : ∀ t ∈ sp, '\\' ∉ t := fun t ht => hsegs t (List.mem_cons_of_mem _ ht)
    by_cases hseg : seg = []
    · subst hseg
      cases sp with
      | nil =>
        rcases h with ⟨c, h⟩ | ⟨e, h⟩ | h
        · simp [nextNoRem] at h
        · simp only [nextNoRem, NextOut.fail.injEq] at h
          obtain ⟨-, rfl⟩ := h
          exact ⟨fun x hx => by simp at hx, fun t ht => by simp at ht⟩
        · simp [nextNoRem] at h
      | cons seg2 sp2 =>
        have hsp2 : ∀ t ∈ sp2, '\\' ∉ t :=
          fun t ht => hsp t (List.mem_cons_of_mem _ ht)
        rcases h with ⟨c, h⟩ | ⟨e, h⟩ | h
        · by_cases h2 : seg2 = []
          · subst h2
            simp only [nextNoRem, List.isEmpty_nil, if_true, reduceIte,
              NextOut.val.injEq] at h
            obtain ⟨-, rfl⟩ := h
            exact ⟨fun x hx => by simp at hx, hsp2⟩
          · simp [nextNoRem, h2] at h
            obtain ⟨-, rfl⟩ := h
            refine ⟨fun x hx => ?_, hsp2⟩
            simp only [Option.some.injEq] at hx
            subst hx
            exact hsp seg2 (List.mem_cons_self _ _)
        · by_cases h2 : seg2 = [] <;> simp [nextNoRem, h2] at h
        · by_cases h2 : seg2 = [] <;> simp [nextNoRem, h2] at h
    · rcases h with ⟨c, h⟩ | ⟨e, h⟩ | h
      · cases hes : escape_sequence seg with
        | ok pr =>
          obtain ⟨ch, rem2⟩ := pr
          simp [nextNoRem, hseg, hes] at h
          obtain ⟨-, rfl⟩ := h
          refine ⟨fun x hx => ?_, hsp⟩
          by_cases hr2 : rem2 = []
          · simp [hr2] at hx
          · simp only [if_neg hr2, Option.some.injEq] at hx
            subst hx
            intro hmem
            have hsub := (escape_sequence_ok hes).1.sublist.subset hmem
            exact hsegs seg (List.mem_cons_self _ _) hsub
        | err e0 => simp [nextNoRem, hseg, hes] at h
        | crash => simp [nextNoRem, hseg, hes] at h
      · cases hes : escape_sequence seg with
        | ok pr => obtain ⟨ch, rem2⟩ := pr; simp [nextNoRem, hseg, hes] at h
        | err e0 =>
          simp [nextNoRem, hseg, hes] at h
          obtain ⟨-, rfl⟩ := h
          exact ⟨fun x hx => by simp at hx, hsp⟩
        | crash => simp [nextNoRem, hseg, hes] at h
      · cases hes : escape_sequence seg <;> simp [nextNoRem, hseg, hes] at h

theorem WeakInv_new (s : Str) : WeakInv (Unescaped.new s) := by
  obtain ⟨h1, h2⟩ := RemInv_new s
  exact ⟨fun x hx => (h1 x hx).2, h2⟩

theorem WeakInv_step {u u' : Unescaped} (hinv : WeakInv u)
    (hstep : fragSucc u = some u' ∨ nextSucc u = some u') : WeakInv u' := by
  obtain ⟨split, rem⟩ := u
  rcases hstep with hstep | hstep
  · cases rem with
    | some r =>
      have he : u' = ⟨split, none⟩ := by
        simpa [fragSucc, Unescaped.next_fragment] using hstep.symm
      subst he
      exact ⟨fun x hx => by simp at hx, hinv.2⟩
    | none =>
      simp only [fragSucc, Unescaped.next_fragment] at hstep
      cases hnn : nextNoRem split with
      | done u'' =>
        rw [hnn] at hstep
        simp only [Option.some.injEq] at hstep
        subst hstep
        exact nextNoRem_states hinv.2 (Or.inr (Or.inr hnn))
      | val c u'' =>
        rw [hnn] at hstep
        simp only [Option.some.injEq] at hstep
        subst hstep
        exact nextNoRem_states hinv.2 (Or.inl ⟨c, hnn⟩)
      | fail e u'' =>
        rw [hnn] at hstep
        simp only [Option.some.injEq] at hstep
        subst hstep
        exact nextNoRem_states hinv.2 (Or.inr (Or.inl ⟨e, hnn⟩))
      | crash =>
        rw [hnn] at hstep
        simp at hstep
  · cases rem with
    | some r =>
      cases r with
      | nil =>
        simp only [nextSucc, Unescaped.next] at hstep
        cases hnn : nextNoRem split with
        | done u'' =>
          rw [hnn] at hstep
          simp only [Option.some.injEq] at hstep
          subst hstep
          exact nextNoRem_states hinv.2 (Or.inr (Or.inr hnn))
        | val c u'' =>
          rw [hnn] at hstep
          simp only [Option.some.injEq] at hstep
          subst hstep
          exact nextNoRem_states hinv.2 (Or.inl ⟨c, hnn⟩)
        | fail e u'' =>
          rw [hnn] at hstep
          simp only [Option.some.injEq] at hstep
          subst hstep
          exact nextNoRem_states hinv.2 (Or.inr (Or.inl ⟨e, hnn⟩))
        | crash =>
          rw [hnn] at hstep
          simp at hstep
      | cons c rest =>
        have he : u' = ⟨split, some rest⟩ := by
          simpa [nextSucc, Unescaped.next] using hstep.symm
        subst he
        refine ⟨fun x hx => ?_, hinv.2⟩
        simp only [Option.some.injEq] at hx
        have hr := hinv.1 (c :: rest) rfl
        intro hm
        rw [← hx] at hm
        exact hr (List.mem_cons_of_mem _ hm)
    | none =>
      simp only [nextSucc, Unescaped.next] at hstep
      cases hnn : nextNoRem split with
      | done u'' =>
        rw [hnn] at hstep
        simp only [Option.some.injEq] at hstep
        subst hstep
        exact nextNoRem_states hinv.2 (Or.inr (Or.inr hnn))
      | val c u'' =>
        rw [hnn] at hstep
        simp only [Option.some.injEq] at hstep
        subst hstep
        exact nextNoRem_states hinv.2 (Or.inl ⟨c, hnn⟩)
      | fail e u'' =>
        rw [hnn] at hstep
        simp only [Option.some.injEq] at hstep
        subst hstep
        exact nextNoRem_states hinv.2 (Or.inr (Or.inl ⟨e, hnn⟩))
      | crash =>
        rw [hnn] at hstep
        simp at hstep

theorem WeakInv_reach {u v : Unescaped} (h : IterReach u v) (hu : WeakInv u) :
    WeakInv v := by
  induction h with
  | refl => exact hu
  | tail _ hstep ih => exact WeakInv_step ih hstep

/-- C4 (amended): under every interleaving of `next()` and `next_fragment()`
calls on a fresh iterator, every `Raw` fragment yielded by `next_fragment()`
contains no backslash and drains the entire pending raw run (so it extends up
to, but not including, the next backslash); and when the iterator is driven
by `next_fragment()` calls only, every `Raw` fragment is additionally
non-empty.  Interleaved `next()` calls can drain a raw run completely, after
which `next_fragment()` yields an empty `Raw` fragment
(`c4_counterexample`). -/
theorem c4_raw_nonempty_maximal :
    (∀ (s : Str) (u u' : Unescaped) (r : Str), IterReach (Unescaped.new s) u →
      u.next_fragment = .frag (.raw r) u' → '\\' ∉ r ∧ u'.rem = none) ∧
    (∀ (s : Str) (u u' : Unescaped) (r : Str), FragReach (Unescaped.new s) u →
      u.next_fragment = .frag (.raw r) u' → r ≠ []) := by
  constructor
  · intro s u u' r hreach hfrag
    have hinv : WeakInv u := WeakInv_reach hreach (WeakInv_new s)
    obtain ⟨split, rem⟩ := u
    cases rem with
    | some r0 =>
      simp only [Unescaped.next_fragment, FragOut.frag.injEq,
        StringFragment.raw.injEq] at hfrag
      obtain ⟨hr, hu'⟩ := hfrag
      have hrr := hinv.1 r0 rfl
      rw [← hu', ← hr]
      exact ⟨hrr, rfl⟩
    | none =>
      exfalso
      cases hnn : nextNoRem split with
      | done u'' => simp [Unescaped.next_fragment, hnn] at hfrag
      | val c u'' => simp [Unescaped.next_fragment, hnn] at hfrag
      | fail e u'' => simp [Unescaped.next_fragment, hnn] at hfrag
      | crash => simp [Unescaped.next_fragment, hnn] at hfrag
  · intro s u u' r hreach hfrag
    have hinv : RemInv u := RemInv_reach hreach (RemInv_new s)
    obtain ⟨split, rem⟩ := u
    cases rem with
    | some r0 =>
      simp only [Unescaped.next_fragment, FragOut.frag.injEq,
        StringFragment.raw.injEq] at hfrag
      obtain ⟨hr, hu'⟩ := hfrag
      have hrr := hinv.1 r0 rfl
      rw [← hr]
      exact hrr.1
    | none =>
      exfalso
      cases hnn : nextNoRem split with
      | done u'' => simp [Unescaped.next_fragment, hnn] at hfrag
      | val c u'' => simp [Unescaped.next_fragment, hnn] at hfrag
      | fail e u'' => simp [Unescaped.next_fragment, hnn] at hfrag
      | crash => simp [Unescaped.next_fragment, hnn] at hfrag

/-- C4, witness: on input `ab`, after one `next()` call (which consumes the
`a`) the state `⟨[], some ['b']⟩` is reached; from it `next_fragment()`
yields the raw run `b`, backslash-free and fully drained — instantiating the
first conjunct along a genuinely interleaved trace.  On input `hi` the first
`next_fragment()` yields the non-empty raw run `hi`, instantiating the
second conjunct. -/
theorem c4_raw_nonempty_maximal_witness :
    nextSucc (Unescaped.new ['a', 'b']) = some ⟨[], some ['b']⟩ ∧
    Unescaped.next_fragment ⟨[], some ['b']⟩ = .frag (.raw ['b']) ⟨[], none⟩ ∧
    ('\\' ∉ (['b'] : Str) ∧ (⟨[], none⟩ : Unescaped).rem = none) ∧
    (Unescaped.new ['h', 'i']).next_fragment =
      .frag (.raw ['h', 'i']) ⟨[], none⟩ ∧
    ['h', 'i'] ≠ [] :=
  ⟨by decide, by decide,
    c4_raw_nonempty_maximal.1 ['a', 'b'] ⟨[], some ['b']⟩ ⟨[], none⟩ ['b']
      (Relation.ReflTransGen.single (Or.inr (by decide))) (by decide),
    by decide,
    c4_raw_nonempty_maximal.2 ['h', 'i'] (Unescaped.new ['h', 'i'])
      ⟨[], none⟩ ['h', 'i'] Relation.ReflTransGen.refl (by decide)⟩

/-! ### Claim C5 -/

theorem unescapeGo_single_raw (r : Str) (fuel : Nat) :
    unescapeGo (fuel + 2) ⟨[], some r⟩ (.borrowed []) = .ok (.borrowed r) := by
  have h1 : cowAddStr (.borrowed []) r = .borrowed r := by
    simp [cowAddStr, cowContent]
  simp [unescapeGo, Unescaped.next_fragment, nextNoRem, h1]

/-- C5: for every input containing no backslash, `unescape` succeeds and
returns a borrowed view whose content is exactly the input. -/
theorem c5_borrow_without_escapes {s : Str} (h : '\\' ∉ s) :
    unescape s = .ok (.borrowed s) := by
  have hsp := splitBs_of_no_bs h
  cases s with
  | nil => decide
  | cons c cs =>
    have hnew : Unescaped.new (c :: cs) = ⟨[], some (c :: cs)⟩ := by
      simp [Unescaped.new, hsp]
    unfold unescape
    rw [hnew]
    show unescapeGo ((c :: cs).length + 1 + 1) ⟨[], some (c :: cs)⟩ (.borrowed []) = _
    have : (c :: cs).length + 1 + 1 = cs.length + 1 + 2 := by simp
    rw [this]
    exact unescapeGo_single_raw (c :: cs) (cs.length + 1)

/-- C5, witness: `unescape "hi"` is the borrow of the input. -/
theorem c5_borrow_without_escapes_witness :
    '\\' ∉ (['h', 'i'] : Str) ∧ unescape ['h', 'i'] = .ok (.borrowed ['h', 'i']) :=
  ⟨by decide, c5_borrow_without_escapes (by decide)⟩

/-! ### ASCII byte slices and octal digits -/

theorem takeBytes_ascii {s : Str} {k : Nat} (hk : k ≤ s.length)
    (hascii : ∀ c ∈ s.take k, charUtf8Size c = 1) :
    takeBytes s k = some (s.take k, s.drop k) := by
  induction s generalizing k with
  | nil =>
    have hk0 : k = 0 := by simpa using hk
    subst hk0
    simp [takeBytes]
  | cons c cs ih =>
    cases k with
    | zero => simp [takeBytes]
    | succ k =>
      have hc : charUtf8Size c = 1 := hascii c (by simp)
      have hk' : k ≤ cs.length := by simpa using hk
      have hascii' : ∀ x ∈ cs.take k, charUtf8Size x = 1 := by
        intro x hx
        exact hascii x (by simp [hx])
      simp [takeBytes, hc, ih hk' hascii']

theorem toDigit8_isSome_range {c : Char} (h : (toDigit 8 c).isSome) :
    48 ≤ c.toNat ∧ c.toNat ≤ 55 := by
  unfold toDigit at h
  split_ifs at h with h1 h2 h3 <;> simp only [] at h
  · split_ifs at h with h4
    · omega
    · simp at h
  · split_ifs at h with h4
    · omega
    · simp at h
  · split_ifs at h with h4
    · omega
    · simp at h
  · simp at h

theorem toDigit8_lt {c : Char} {d : Nat} (h : toDigit 8 c = some d) : d < 8 := by
  unfold toDigit at h
  split_ifs at h with h1 h2 h3 <;> simp at h <;> omega

theorem toDigit8_utf8Size {c : Char} (h : (toDigit 8 c).isSome) :
    charUtf8Size c = 1 := by
  have := toDigit8_isSome_range h
  unfold charUtf8Size
  rw [if_pos (by omega)]

/-- An octal-digit head never matches the literal alternatives of
`escape_sequence`, so decoding dispatches to the octal branch. -/
theorem escape_sequence_octal_dispatch {c : Char} (h1 : 48 ≤ c.toNat)
    (h2 : c.toNat ≤ 55) (cs : Str) : escape_sequence (c :: cs) = octalEscape c cs := by
  have hgt : ∀ x : Char, 55 < x.toNat → c ≠ x := by
    intro x hx h
    subst h
    omega
  have hlt : ∀ x : Char, x.toNat < 48 → c ≠ x := by
    intro x hx h
    subst h
    omega
  simp [escape_sequence,
    hgt 'a' (by decide), hgt 'b' (by decide), hgt 'f' (by decide),
    hgt 'n' (by decide), hgt 'r' (by decide), hgt 't' (by decide),
    hgt 'v' (by decide), hgt '\\' (by decide), hlt '\'' (by decide),
    hlt '"' (by decide), hlt '/' (by decide), hlt '\r' (by decide),
    hlt '\n' (by decide), hgt 'x' (by decide), hgt 'u' (by decide),
    hgt 'U' (by decide)]

theorem parseDigits_octal_ok :
    ∀ (l : Str) (acc : Nat), (∀ x ∈ l, (toDigit 8 x).isSome) →
      (acc + 1) * 8 ^ l.length ≤ 4294967296 →
      ∃ n, parseDigits 8 l acc = .ok n ∧ n < (acc + 1) * 8 ^ l.length := by
  intro l
  induction l with
  | nil =>
    intro acc _ _
    exact ⟨acc, rfl, by simp⟩
  | cons x l' ih =>
    intro acc hall hbound
    obtain ⟨d, hd⟩ := Option.isSome_iff_exists.1 (hall x (by simp))
    have hd8 : d < 8 := toDigit8_lt hd
    have hstep : (acc * 8 + d + 1) * 8 ^ l'.length ≤ 4294967296 := by
      calc (acc * 8 + d + 1) * 8 ^ l'.length
          ≤ ((acc + 1) * 8) * 8 ^ l'.length := by
            apply Nat.mul_le_mul_right
            omega
        _ = (acc + 1) * 8 ^ (l'.length + 1) := by ring
        _ ≤ 4294967296 := by simpa using hbound
    have hchk : acc * 8 + d < 4294967296 := by
      have h1 : 1 ≤ 8 ^ l'.length := Nat.one_le_pow _ _ (by norm_num)
      calc acc * 8 + d < (acc * 8 + d + 1) * 1 := by omega
        _ ≤ (acc * 8 + d + 1) * 8 ^ l'.length := Nat.mul_le_mul_left _ h1
        _ ≤ 4294967296 := hstep
    obtain ⟨n, hn, hnlt⟩ := ih (acc * 8 + d) (fun y hy => hall y (by simp [hy])) hstep
    refine ⟨n, ?_, ?_⟩
    · simp only [parseDigits, hd, if_pos hchk]
      exact hn
    · calc n < (acc * 8 + d + 1) * 8 ^ l'.length := hnlt
        _ ≤ ((acc + 1) * 8) * 8 ^ l'.length := by
            apply Nat.mul_le_mul_right
            omega
        _ = (acc + 1) * 8 ^ (l'.length + 1) := by ring
        _ = (acc + 1) * 8 ^ (x :: l').length := by simp

/-! ### Claim C7 -/

/-- C7: whenever the digits of a hex or octal escape parse to a `u32` that is
not a Unicode scalar value (`char::from_u32` refuses it: a surrogate or an
out-of-range value), decoding fails with `InvalidUnicode` carrying exactly
that parsed value.  One conjunct per escape form: `\x`, `\u` (fixed), `\U`,
`\u{...}`, and octal. -/
theorem c7_invalid_unicode_carries_value :
    (∀ (s pre suf : Str) (n : Nat), ¬utf8Len s < 2 →
      takeBytes s 2 = some (pre, suf) → fromStrRadix 16 pre = .ok n →
      charFromU32 n = none →
      escape_sequence ('x' :: s) = .err (.invalidUnicode n)) ∧
    (∀ (s pre suf : Str) (n : Nat), s.head? ≠ some '{' → ¬utf8Len s < 4 →
      takeBytes s 4 = some (pre, suf) → fromStrRadix 16 pre = .ok n →
      charFromU32 n = none →
      escape_sequence ('u' :: s) = .err (.invalidUnicode n)) ∧
    (∀ (s pre suf : Str) (n : Nat), ¬utf8Len s < 8 →
      takeBytes s 8 = some (pre, suf) → fromStrRadix 16 pre = .ok n →
      charFromU32 n = none →
      escape_sequence ('U' :: s) = .err (.invalidUnicode n)) ∧
    (∀ (cs2 pre suf : Str) (n : Nat),
      takeBytes cs2 (cs2.takeWhile (fun x => x ≠ '}')).length = some (pre, suf) →
      fromStrRadix 16 pre = .ok n → charFromU32 n = none →
      escape_sequence ('u' :: '{' :: cs2) = .err (.invalidUnicode n)) ∧
    (∀ (c : Char) (cs : Str) (n : Nat), (toDigit 8 c).isSome →
      fromStrRadix 8
        ((c :: cs).take
          (min ((c :: cs).takeWhile (fun x => (toDigit 8 x).isSome)).length 3)) = .ok n →
      charFromU32 n = none →
      escape_sequence (c :: cs) = .err (.invalidUnicode n)) := by
  refine ⟨fun s pre suf n hnl htb hp hc => ?_,
    fun s pre suf n hbr hnl htb hp hc => ?_,
    fun s pre suf n hnl htb hp hc => ?_,
    fun cs2 pre suf n htb hp hc => ?_,
    fun c cs n hoct hp hc => ?_⟩
  · have hx : escape_sequence ('x' :: s) = unicode_char s 2 := rfl
    rw [hx]
    unfold unicode_char
    rw [if_neg hnl]
    simp [htb, hp, hc]
  · have hu : escape_sequence ('u' :: s) = unicode_char s 4 := by
      cases s with
      | nil => rfl
      | cons c0 s1 =>
        have hc0 : ¬c0 = '{' := fun heq => hbr (by rw [heq]; rfl)
        simp [escape_sequence, hc0]
    rw [hu]
    unfold unicode_char
    rw [if_neg hnl]
    simp [htb, hp, hc]
  · have hU : escape_sequence ('U' :: s) = unicode_char s 8 := rfl
    rw [hU]
    unfold unicode_char
    rw [if_neg hnl]
    simp [htb, hp, hc]
  · have hbrace : escape_sequence ('u' :: '{' :: cs2) = braceUnicode cs2 := rfl
    rw [hbrace]
    unfold braceUnicode
    simp only [ne_eq, decide_not] at htb ⊢
    simp [htb, hp, hc]
  · have hrange := toDigit8_isSome_range hoct
    rw [escape_sequence_octal_dispatch hrange.1 hrange.2]
    unfold octalEscape
    have hcount : 0 < min ((c :: cs).takeWhile (fun x => (toDigit 8 x).isSome)).length 3 := by
      have hc' : (toDigit 8 c).isSome = true := hoct
      rw [List.takeWhile_cons, if_pos hc']
      simp only [List.length_cons]
      omega
    rw [if_pos hcount]
    set count := min ((c :: cs).takeWhile (fun x => (toDigit 8 x).isSome)).length 3 with hcdef
    have hcle : count ≤ (c :: cs).length := by
      have h1 : ((c :: cs).takeWhile (fun x => (toDigit 8 x).isSome)).length ≤ (c :: cs).length :=
        (List.takeWhile_sublist _).length_le
      omega
    have hasc : ∀ x ∈ (c :: cs).take count, charUtf8Size x = 1 := by
      intro x hx
      have hxw : x ∈ (c :: cs).takeWhile (fun y => (toDigit 8 y).isSome) := by
        have hsub : (c :: cs).take count =
            ((c :: cs).takeWhile (fun y => (toDigit 8 y).isSome)).take count := by
          conv_lhs => rw [← List.takeWhile_append_dropWhile
            (fun y => (toDigit 8 y).isSome) (c :: cs)]
          exact List.take_append_of_le_length (by omega)
        rw [hsub] at hx
        exact List.mem_of_mem_take hx
      exact toDigit8_utf8Size (by simpa using List.mem_takeWhile_imp hxw)
    rw [takeBytes_ascii hcle hasc]
    simp [hp, hc]

/-- C7, witness: `\uD800` parses to the surrogate 55296, which is rejected
as `InvalidUnicode 55296`. -/
theorem c7_invalid_unicode_witness :
    takeBytes ['D', '8', '0', '0'] 4 = some (['D', '8', '0', '0'], []) ∧
    fromStrRadix 16 ['D', '8', '0', '0'] = .ok 55296 ∧
    charFromU32 55296 = none ∧
    escape_sequence ['u', 'D', '8', '0', '0'] = .err (.invalidUnicode 55296) :=
  ⟨by decide, by rfl, by rfl,
    c7_invalid_unicode_carries_value.2.1 ['D', '8', '0', '0'] ['D', '8', '0', '0'] []
      55296 (by decide) (by decide) (by decide) (by rfl) (by rfl)⟩

/-! ### Claim C9 -/

/-- C9: an escape token whose first character is an octal digit `0`–`7` (such
a character matches none of the earlier rules) consumes up to 3 consecutive
octal digits — stopping early at the first non-octal character — parses them
as base 8, validates the value as a Unicode scalar value (an octal value is
at most 0o777 = 511, hence always valid), and leaves the remaining characters
unconsumed. -/
theorem c9_octal_decoding (c : Char) (cs : Str) (hoct : (toDigit 8 c).isSome) :
    ∃ n ch,
      fromStrRadix 8
        ((c :: cs).take
          (min ((c :: cs).takeWhile (fun x => (toDigit 8 x).isSome)).length 3)) = .ok n ∧
      charFromU32 n = some ch ∧
      escape_sequence (c :: cs) =
        .ok (ch, (c :: cs).drop
          (min ((c :: cs).takeWhile (fun x => (toDigit 8 x).isSome)).length 3)) := by
  have hrange := toDigit8_isSome_range hoct
  have hc' : (toDigit 8 c).isSome = true := hoct
  have hcount : 0 < min ((c :: cs).takeWhile (fun x => (toDigit 8 x).isSome)).length 3 := by
    rw [List.takeWhile_cons, if_pos hc']
    simp only [List.length_cons]
    omega
  have hcle : min ((c :: cs).takeWhile (fun x => (toDigit 8 x).isSome)).length 3 ≤
      (c :: cs).length := by
    have h1 : ((c :: cs).takeWhile (fun x => (toDigit 8 x).isSome)).length ≤
        (c :: cs).length := (List.takeWhile_sublist _).length_le
    omega
  have hmemoct : ∀ x ∈ (c :: cs).take
      (min ((c :: cs).takeWhile (fun y => (toDigit 8 y).isSome)).length 3),
      (toDigit 8 x).isSome := by
    intro x hx
    have hsub : (c :: cs).take
        (min ((c :: cs).takeWhile (fun y => (toDigit 8 y).isSome)).length 3) =
        ((c :: cs).takeWhile (fun y => (toDigit 8 y).isSome)).take
          (min ((c :: cs).takeWhile (fun y => (toDigit 8 y).isSome)).length 3) := by
      generalize hm : min ((c :: cs).takeWhile (fun y => (toDigit 8 y).isSome)).length 3 = m
      have hle : m ≤ ((c :: cs).takeWhile (fun y => (toDigit 8 y).isSome)).length := by
        rw [← hm]
        exact Nat.min_le_left _ _
      conv_lhs => rw [← List.takeWhile_append_dropWhile
        (fun y => (toDigit 8 y).isSome) (c :: cs)]
      exact List.take_append_of_le_length hle
    rw [hsub] at hx
    simpa using List.mem_takeWhile_imp (List.mem_of_mem_take hx)
  have hasc : ∀ x ∈ (c :: cs).take
      (min ((c :: cs).takeWhile (fun y => (toDigit 8 y).isSome)).length 3),
      charUtf8Size x = 1 :=
    fun x hx => toDigit8_utf8Size (hmemoct x hx)
  have hlen3 : ((c :: cs).take
      (min ((c :: cs).takeWhile (fun y => (toDigit 8 y).isSome)).length 3)).length ≤ 3 := by
    rw [List.length_take]
    omega
  have hbound : (0 + 1) * 8 ^ ((c :: cs).take
      (min ((c :: cs).takeWhile (fun y => (toDigit 8 y).isSome)).length 3)).length ≤
      4294967296 := by
    have h8 : 8 ^ ((c :: cs).take
        (min ((c :: cs).takeWhile (fun y => (toDigit 8 y).isSome)).length 3)).length ≤ 8 ^ 3 :=
      Nat.pow_le_pow_right (by norm_num) hlen3
    omega
  obtain ⟨n, hn, hnlt⟩ := parseDigits_octal_ok _ 0 hmemoct hbound
  have hn512 : n < 512 := by
    have h8 : 8 ^ ((c :: cs).take
        (min ((c :: cs).takeWhile (fun y => (toDigit 8 y).isSome)).length 3)).length ≤ 8 ^ 3 :=
      Nat.pow_le_pow_right (by norm_num) hlen3
    have h83 : (8 : Nat) ^ 3 = 512 := by norm_num
    omega
  have hplus : c ≠ '+' := by
    intro h
    rw [h] at hrange
    exact absurd hrange.1 (by decide)
  have hfsr : fromStrRadix 8 ((c :: cs).take
      (min ((c :: cs).takeWhile (fun y => (toDigit 8 y).isSome)).length 3)) = .ok n := by
    cases hc2 : min ((c :: cs).takeWhile (fun y => (toDigit 8 y).isSome)).length 3 with
    | zero => omega
    | succ k =>
      rw [hc2, List.take_succ_cons] at hn
      rw [List.take_succ_cons]
      simpa [fromStrRadix, hplus] using hn
  have hch : charFromU32 n = some (Char.ofNat n) := by
    unfold charFromU32
    rw [if_pos (Or.inl (by omega))]
  refine ⟨n, Char.ofNat n, hfsr, hch, ?_⟩
  rw [escape_sequence_octal_dispatch hrange.1 hrange.2]
  simp only [octalEscape]
  rw [if_pos hcount, takeBytes_ascii hcle hasc]
  simp [hfsr, hch]

/-- C9, witness: `\1234` consumes exactly three octal digits (`123` =
0o123 = 83 = `S`) and leaves `4` unconsumed. -/
theorem c9_octal_decoding_witness :
    (toDigit 8 '1').isSome ∧
    (∃ n ch,
      fromStrRadix 8
        ((['1', '2', '3', '4'] : Str).take
          (min ((['1', '2', '3', '4'] : Str).takeWhile
            (fun x => (toDigit 8 x).isSome)).length 3)) = .ok n ∧
      charFromU32 n = some ch ∧
      escape_sequence ['1', '2', '3', '4'] =
        .ok (ch, (['1', '2', '3', '4'] : Str).drop
          (min ((['1', '2', '3', '4'] : Str).takeWhile
            (fun x => (toDigit 8 x).isSome)).length 3))) :=
  ⟨by decide, c9_octal_decoding '1' ['2', '3', '4'] (by decide)⟩

/-! ### Claim C10 -/

/-- C10, counterexample: with no closing brace the claim predicts a
`ParseIntError` for the non-hex text `é`, but the code panics — `size`
counts 1 character while `&s[0..1]` slices one byte, in the middle of the
two-byte `é`. -/
theorem c10_counterexample : escape_sequence ['u', '{', 'é'] = .crash := by
  decide

/-- C10 (amended): for a `\u{` escape with no closing `}` before end of
input, when the remaining text is ASCII the decoder treats all of it as the
digit string: parse success with a scalar value yields that character with an
empty remainder, parse failure (empty or non-hex text) yields exactly the
`ParseIntError`, and neither `IncompleteUnicode` nor `IncompleteSequence` is
ever raised.  (With non-ASCII remaining text the byte slice can panic,
`c10_counterexample`.) -/
theorem c10_unterminated_brace (cs : Str) (hnb : '}' ∉ cs)
    (hascii : ∀ c ∈ cs, c.toNat < 128) :
    (∀ e, fromStrRadix 16 cs = .error e →
      escape_sequence ('u' :: '{' :: cs) = .err (.parseIntError e)) ∧
    (∀ n ch, fromStrRadix 16 cs = .ok n → charFromU32 n = some ch →
      escape_sequence ('u' :: '{' :: cs) = .ok (ch, [])) ∧
    escape_sequence ('u' :: '{' :: cs) ≠ .err .incompleteUnicode ∧
    escape_sequence ('u' :: '{' :: cs) ≠ .err .incompleteSequence := by
  have hp : ∀ x ∈ cs, (!decide (x = '}')) = true := by
    intro x hx
    have hxne : x ≠ '}' := by
      intro h
      rw [h] at hx
      exact hnb hx
    simp [hxne]
  have htw : cs.takeWhile (fun x => !decide (x = '}')) = cs :=
    List.takeWhile_eq_self_iff.2 hp
  have hdw : cs.dropWhile (fun x => !decide (x = '}')) = [] :=
    List.dropWhile_eq_nil_iff.2 hp
  have hasc1 : ∀ x ∈ cs.take cs.length, charUtf8Size x = 1 := by
    intro x hx
    have := hascii x (List.mem_of_mem_take hx)
    unfold charUtf8Size
    rw [if_pos (by omega)]
  have htb : takeBytes cs cs.length = some (cs, []) := by
    have := takeBytes_ascii (le_refl cs.length) hasc1
    simpa [List.take_length, List.drop_length] using this
  have hbz : escape_sequence ('u' :: '{' :: cs) = braceUnicode cs := rfl
  have hred : braceUnicode cs =
      (match fromStrRadix 16 cs with
       | .error e => Res.err (.parseIntError e)
       | .ok num =>
         match charFromU32 num with
         | none => .err (.invalidUnicode num)
         | some ch => .ok (ch, [])) := by
    unfold braceUnicode
    simp only [ne_eq, decide_not]
    rw [htw, htb, hdw]
    simp
  refine ⟨fun e he => ?_, fun n ch hn hch => ?_, ?_, ?_⟩
  · rw [hbz, hred, he]
  · rw [hbz, hred, hn]
    simp [hch]
  · rw [hbz, hred]
    cases hfs : fromStrRadix 16 cs with
    | error e => simp
    | ok n =>
      cases hc : charFromU32 n with
      | none => simp [hc]
      | some ch => simp [hc]
  · rw [hbz, hred]
    cases hfs : fromStrRadix 16 cs with
    | error e => simp
    | ok n =>
      cases hc : charFromU32 n with
      | none => simp [hc]
      | some ch => simp [hc]

/-- C10, witness: `\u{41` (end of input, no brace) decodes to `A` with an
empty remainder, and `\u{` with empty digit text gives the `Empty` parse
error. -/
theorem c10_unterminated_brace_witness :
    fromStrRadix 16 ['4', '1'] = .ok 65 ∧
    charFromU32 65 = some 'A' ∧
    escape_sequence ['u', '{', '4', '1'] = .ok ('A', []) ∧
    escape_sequence ['u', '{'] = .err (.parseIntError .empty) :=
  ⟨by rfl, by rfl, (c10_unterminated_brace ['4', '1'] (by decide)
      (by decide)).2.1 65 'A' (by rfl) (by rfl),
    (c10_unterminated_brace [] (by decide) (by decide)).1 .empty (by rfl)⟩

/-! ### Hex digit printing and parsing round-trip -/

theorem digitChar_facts : ∀ m, m < 16 →
    toDigit 16 (Nat.digitChar m) = some m ∧ (Nat.digitChar m).toNat < 128 ∧
    Nat.digitChar m ≠ '}' ∧ Nat.digitChar m ≠ '\\' ∧ Nat.digitChar m ≠ '+' := by
  decide

theorem hexDigits_mem {n : Nat} : ∀ c ∈ hexDigits n,
    ∃ m, m < 16 ∧ c = Nat.digitChar m := by
  induction n using Nat.strong_induction_on with
  | _ n ih =>
    intro c hc
    by_cases h16 : n < 16
    · rw [hexDigits.eq_def, if_pos h16] at hc
      simp only [List.mem_singleton] at hc
      exact ⟨n, h16, hc⟩
    · rw [hexDigits.eq_def, if_neg h16] at hc
      rcases List.mem_append.1 hc with h | h
      · exact ih (n / 16) (Nat.div_lt_self (by omega) (by norm_num)) c h
      · simp only [List.mem_singleton] at h
        exact ⟨n % 16, Nat.mod_lt _ (by norm_num), h⟩

theorem hexDigits_ne_nil (n : Nat) : hexDigits n ≠ [] := by
  rw [hexDigits.eq_def]
  split_ifs <;> simp

theorem parseDigits_append (radix : Nat) (l1 l2 : Str) (acc : Nat) :
    parseDigits radix (l1 ++ l2) acc =
      match parseDigits radix l1 acc with
      | .ok acc' => parseDigits radix l2 acc'
      | .error e => .error e := by
  induction l1 generalizing acc with
  | nil => simp [parseDigits]
  | cons x l1' ih =>
    simp only [List.cons_append, parseDigits]
    cases htd : toDigit radix x with
    | none => simp
    | some d =>
      dsimp only
      split_ifs with hchk
      · exact ih _
      · simp

theorem parseDigits_hexDigits :
    ∀ n, ∀ acc, acc * 16 ^ (hexDigits n).length + n < 4294967296 →
      parseDigits 16 (hexDigits n) acc = .ok (acc * 16 ^ (hexDigits n).length + n) := by
  intro n
  induction n using Nat.strong_induction_on with
  | _ n ih =>
    intro acc hb
    by_cases h16 : n < 16
    · have hx : hexDigits n = [Nat.digitChar n] := by
        rw [hexDigits.eq_def, if_pos h16]
      rw [hx] at hb ⊢
      simp only [List.length_cons, List.length_nil, Nat.zero_add, pow_one] at hb ⊢
      have hd := (digitChar_facts n h16).1
      simp only [parseDigits, hd]
      rw [if_pos (by omega)]
    · have hx : hexDigits n = hexDigits (n / 16) ++ [Nat.digitChar (n % 16)] := by
        rw [hexDigits.eq_def, if_neg h16]
      rw [hx] at hb ⊢
      rw [parseDigits_append]
      simp only [List.length_append, List.length_cons, List.length_nil,
        Nat.add_zero, Nat.zero_add] at hb ⊢
      rw [pow_succ] at hb ⊢
      have hmul : acc * (16 ^ (hexDigits (n / 16)).length * 16) =
          acc * 16 ^ (hexDigits (n / 16)).length * 16 := by ring
      rw [hmul] at hb ⊢
      have hbrec : acc * 16 ^ (hexDigits (n / 16)).length + n / 16 < 4294967296 := by
        omega
      rw [ih (n / 16) (Nat.div_lt_self (by omega) (by norm_num)) acc hbrec]
      have hd := (digitChar_facts (n % 16) (Nat.mod_lt _ (by norm_num))).1
      simp only [parseDigits, hd]
      rw [if_pos (by omega)]
      have hval : (acc * 16 ^ (hexDigits (n / 16)).length + n / 16) * 16 + n % 16 =
          acc * 16 ^ (hexDigits (n / 16)).length * 16 + n := by omega
      rw [hval]

theorem fromStrRadix_hexDigits {n : Nat} (hn : n < 4294967296) :
    fromStrRadix 16 (hexDigits n) = .ok n := by
  have hpd := parseDigits_hexDigits n 0 (by simpa using hn)
  simp only [Nat.zero_mul, Nat.zero_add] at hpd
  cases hhd : hexDigits n with
  | nil => exact absurd hhd (hexDigits_ne_nil n)
  | cons h0 rest =>
    have hplus : h0 ≠ '+' := by
      obtain ⟨m, hm, hc⟩ := hexDigits_mem h0 (by rw [hhd]; exact List.mem_cons_self _ _)
      rw [hc]
      exact (digitChar_facts m hm).2.2.2.2
    rw [hhd] at hpd
    simpa [fromStrRadix, hplus] using hpd

theorem charFromU32_toNat (c : Char) : charFromU32 c.toNat = some c := by
  unfold charFromU32
  rw [if_pos, Char.ofNat_toNat]
  have hv := c.valid
  rcases hv with h | h
  · exact Or.inl h
  · exact Or.inr ⟨h.1, h.2⟩

/-! ### One escaped-or-plain unit consumes to exactly the tail state -/

theorem takeWhile_append_stop {p : Char → Bool} {l1 : Str}
    (h1 : ∀ x ∈ l1, p x = true) {c : Char} (hc : p c = false) (l2 : Str) :
    (l1 ++ c :: l2).takeWhile p = l1 ∧ (l1 ++ c :: l2).dropWhile p = c :: l2 := by
  induction l1 with
  | nil => simp [List.takeWhile_cons, List.dropWhile_cons, hc]
  | cons y l1' ih =>
    have hy : p y = true := h1 y (by simp)
    have ih' := ih (fun x hx => h1 x (by simp [hx]))
    simp [List.takeWhile_cons, List.dropWhile_cons, hy, ih'.1, ih'.2]

theorem runChars_cons_plain {p : Char} (hp : p ≠ '\\') (rest : Str) :
    runChars (Unescaped.new (p :: rest)) =
      (runChars (Unescaped.new rest)).map (fun t => .ok p :: t) := by
  cases hsp : splitBs rest with
  | nil => exact absurd hsp (splitBs_ne_nil rest)
  | cons h t =>
    have h1 : splitBs (p :: rest) = (p :: h) :: t := splitBs_cons_ne hp rest hsp
    have hnew1 : Unescaped.new (p :: rest) = ⟨t, some (p :: h)⟩ := by
      unfold Unescaped.new
      rw [h1]
      simp
    have hnew2 : Unescaped.new rest = ⟨t, if h = [] then none else some h⟩ := by
      unfold Unescaped.new
      rw [hsp]
    rw [hnew1, hnew2]
    by_cases hh : h = [] <;> cases hrs : runSplit t <;>
      simp [runChars, runRem, hrs, hh]

theorem runChars_escape_unit {body : Str} (hb : body ≠ []) (hnb : '\\' ∉ body)
    {ch : Char} (hdec : ∀ x, escape_sequence (body ++ x) = .ok (ch, x)) (rest : Str) :
    runChars (Unescaped.new (('\\' :: body) ++ rest)) =
      (runChars (Unescaped.new rest)).map (fun t => .ok ch :: t) := by
  cases hsp : splitBs rest with
  | nil => exact absurd hsp (splitBs_ne_nil rest)
  | cons h t =>
    have h2 : splitBs (body ++ rest) = (body ++ h) :: t := splitBs_append_no_bs hnb rest hsp
    have h1 : splitBs ('\\' :: (body ++ rest)) = [] :: (body ++ h) :: t := by
      rw [splitBs_cons_bs, h2]
    have hnew1 : Unescaped.new (('\\' :: body) ++ rest) = ⟨(body ++ h) :: t, none⟩ := by
      unfold Unescaped.new
      rw [List.cons_append, h1]
      simp
    have hbh : body ++ h ≠ [] := by
      intro hx
      exact hb (List.append_eq_nil.1 hx).1
    have hes : escape_sequence (body ++ h) = .ok (ch, h) := hdec h
    have hnew2 : Unescaped.new rest = ⟨t, if h = [] then none else some h⟩ := by
      unfold Unescaped.new
      rw [hsp]
    rw [hnew1, hnew2, runChars, runSplit_seg_ok hbh hes t]
    by_cases hh : h = [] <;> cases hrs : runSplit t <;>
      simp [runChars, runRem, hrs, hh]

theorem runChars_double_bs (rest : Str) :
    runChars (Unescaped.new ('\\' :: '\\' :: rest)) =
      (runChars (Unescaped.new rest)).map (fun t => .ok '\\' :: t) := by
  cases hsp : splitBs rest with
  | nil => exact absurd hsp (splitBs_ne_nil rest)
  | cons h t =>
    have h1 : splitBs ('\\' :: '\\' :: rest) = [] :: [] :: h :: t := by
      rw [splitBs_cons_bs, splitBs_cons_bs, hsp]
    have hnew1 : Unescaped.new ('\\' :: '\\' :: rest) = ⟨[] :: h :: t, none⟩ := by
      unfold Unescaped.new
      rw [h1]
      simp
    have hnew2 : Unescaped.new rest = ⟨t, if h = [] then none else some h⟩ := by
      unfold Unescaped.new
      rw [hsp]
    rw [hnew1, hnew2, runChars, runSplit_empty_cons]
    by_cases hh : h = [] <;> cases hrs : runSplit t <;>
      simp [runChars, runRem, hrs, hh]

/-- The canonical escaper emits, for each character, either the character
itself (plain printable), a backslash unit whose decoding gives the character
back and consumes exactly the unit, or the double backslash. -/
theorem escapeChar_decodes (c : Char) :
    (escapeChar c = [c] ∧ c ≠ '\\') ∨
    (∃ body, escapeChar c = '\\' :: body ∧ body ≠ [] ∧ '\\' ∉ body ∧
      ∀ x, escape_sequence (body ++ x) = .ok (c, x)) ∨
    (escapeChar c = ['\\', '\\'] ∧ c = '\\') := by
  unfold escapeChar
  split_ifs with h1 h2 h3 h4 h5 h6 h7
  · subst h1
    exact Or.inr (Or.inl ⟨['t'], rfl, by simp, by simp, fun x => rfl⟩)
  · subst h2
    exact Or.inr (Or.inl ⟨['r'], rfl, by simp, by simp, fun x => rfl⟩)
  · subst h3
    exact Or.inr (Or.inl ⟨['n'], rfl, by simp, by simp, fun x => rfl⟩)
  · exact Or.inr (Or.inr ⟨rfl, h4⟩)
  · subst h5
    exact Or.inr (Or.inl ⟨['\''], rfl, by simp, by simp, fun x => rfl⟩)
  · subst h6
    exact Or.inr (Or.inl ⟨['"'], rfl, by simp, by simp, fun x => rfl⟩)
  · exact Or.inl ⟨rfl, h4⟩
  · -- `\u{...}` unit
    refine Or.inr (Or.inl ⟨'u' :: '{' :: (hexDigits c.toNat ++ ['}']), rfl, by simp, ?_, ?_⟩)
    · intro hmem
      simp only [List.mem_cons, List.mem_append, List.mem_singleton] at hmem
      rcases hmem with h | h | h | h
      · exact absurd h.symm (by decide)
      · exact absurd h.symm (by decide)
      · obtain ⟨m, hm, hc⟩ := hexDigits_mem '\\' h
        exact (digitChar_facts m hm).2.2.2.1 hc.symm
      · exact absurd h (by decide)
    · intro x
      have hcs : ('u' :: '{' :: (hexDigits c.toNat ++ ['}'])) ++ x =
          'u' :: '{' :: (hexDigits c.toNat ++ '}' :: x) := by simp
      rw [hcs]
      have hbz : escape_sequence ('u' :: '{' :: (hexDigits c.toNat ++ '}' :: x)) =
          braceUnicode (hexDigits c.toNat ++ '}' :: x) := rfl
      rw [hbz]
      have hhex : ∀ y ∈ hexDigits c.toNat, (!decide (y = '}')) = true := by
        intro y hy
        obtain ⟨m, hm, hc⟩ := hexDigits_mem y hy
        have := (digitChar_facts m hm).2.2.1
        simp [hc, this]
      have hstop := takeWhile_append_stop hhex
        (show (fun y => !decide (y = '}')) '}' = false by simp) x
      have hasc : ∀ y ∈ (hexDigits c.toNat ++ '}' :: x).take (hexDigits c.toNat).length,
          charUtf8Size y = 1 := by
        intro y hy
        rw [List.take_left] at hy
        obtain ⟨m, hm, hc⟩ := hexDigits_mem y hy
        have := (digitChar_facts m hm).2.1
        unfold charUtf8Size
        rw [hc, if_pos (by omega)]
      have htb : takeBytes (hexDigits c.toNat ++ '}' :: x) (hexDigits c.toNat).length =
          some (hexDigits c.toNat, '}' :: x) := by
        have := takeBytes_ascii (by simp) hasc
        rwa [List.take_left, List.drop_left] at this
      have hfsr : fromStrRadix 16 (hexDigits c.toNat) = .ok c.toNat := by
        apply fromStrRadix_hexDigits
        have hv := c.valid
        have he : c.toNat = c.val.toNat := rfl
        rcases hv with h | h <;> omega
      unfold braceUnicode
      simp only [ne_eq, decide_not]
      rw [hstop.1, htb, hstop.2]
      simp [hfsr, charFromU32_toNat c]

/-- Decoding the canonical escaping of `s` yields exactly the characters of
`s`, with no error and no panic. -/
theorem runChars_escape (s : Str) :
    runChars (Unescaped.new (escape s)) = some (s.map .ok) := by
  induction s with
  | nil =>
    have : escape [] = [] := rfl
    rw [this]
    simp [Unescaped.new, splitBs, runChars, runSplit_nil, runRem]
  | cons c s' ih =>
    have hesc : escape (c :: s') = escapeChar c ++ escape s' := by
      simp [escape]
    rw [hesc]
    rcases escapeChar_decodes c with ⟨h1, h2⟩ | ⟨body, h1, h2, h3, h4⟩ | ⟨h1, h2⟩
    · rw [h1, List.singleton_append, runChars_cons_plain h2 (escape s'), ih]
      simp
    · rw [h1, runChars_escape_unit h2 h3 h4 (escape s'), ih]
      simp
    · rw [h1]
      have : (['\\', '\\'] : Str) ++ escape s' = '\\' :: '\\' :: escape s' := rfl
      rw [this, runChars_double_bs, ih]
      subst h2
      simp

/-! ### Claim C6 -/

/-- C6: the round-trip law.  `escape` is the spec's hypothetical canonical
escaper (modelled from the spec, in the `escape_default` format the
repository's quickcheck test uses); for every text `s`, `unescape (escape s)`
succeeds and its content is exactly `s`. -/
theorem c6_roundtrip (s : Str) :
    ∃ cw, unescape (escape s) = .ok cw ∧ cowContent cw = s := by
  have hrc := runChars_escape s
  have hgo := @unescapeGo_ok (weight (Unescaped.new (escape s)) + 1)
    (Unescaped.new (escape s)) (.borrowed []) s (by omega) hrc
  obtain ⟨cw, h1, h2⟩ := hgo
  refine ⟨cw, h1, ?_⟩
  rw [h2]
  rfl

/-! ### The doom predicate: trailing lone backslashes end in `IncompleteSequence` -/

theorem last_keep {α : Type} {l t : List α} {e : α} (h : t.getLast? = some e) :
    (l ++ t).getLast? = some e := by
  rw [List.getLast?_append, h]
  rfl

theorem last_keep_cons {α : Type} {a : α} {t : List α} {e : α}
    (h : t.getLast? = some e) : (a :: t).getLast? = some e := by
  have := last_keep (l := [a]) h
  simpa using this

theorem doom_replicate : ∀ k, k % 2 = 1 → doomF (List.replicate k []) = true := by
  intro k
  induction k using Nat.strong_induction_on with
  | _ k ih =>
    match k with
    | 0 => intro h; simp at h
    | 1 => intro _; rfl
    | (m + 2) =>
      intro h
      have hrep : List.replicate (m + 2) ([] : Str) = [] :: [] :: List.replicate m [] := rfl
      rw [hrep]
      have hd : doomF ([] :: [] :: List.replicate m []) = doomF (List.replicate m []) := by
        simp [doomF]
      rw [hd]
      exact ih m (by omega) (by omega)

theorem doom_append (n : Nat) : ∀ M : List Str, M.length ≤ n →
    M.getLast? ≠ some [] → ∀ k, k % 2 = 1 →
    doomF (M ++ List.replicate k []) = true := by
  induction n with
  | zero =>
    intro M hlen _ k hk
    have : M = [] := List.eq_nil_of_length_eq_zero (by omega)
    subst this
    simpa using doom_replicate k hk
  | succ n ih =>
    intro M hlen hlast k hk
    match M with
    | [] => simpa using doom_replicate k hk
    | [s] =>
      have hs : s ≠ [] := by
        intro h
        exact hlast (by simp [h])
      cases k with
      | zero => simp at hk
      | succ m =>
        have hrep : List.replicate (m + 1) ([] : Str) = [] :: List.replicate m [] := rfl
        have hshape : ([s] ++ List.replicate (m + 1) []) =
            s :: [] :: List.replicate m [] := by
          rw [hrep]
          rfl
        rw [hshape]
        have hse : s.isEmpty = false := by
          cases s with
          | nil => exact absurd rfl hs
          | cons _ _ => rfl
        have hd : doomF (s :: [] :: List.replicate m []) =
            doomF ([] :: List.replicate m []) := by
          simp [doomF, hse]
        rw [hd, ← hrep]
        exact doom_replicate (m + 1) hk
    | s :: s2 :: M2 =>
      have hshape : ((s :: s2 :: M2) ++ List.replicate k []) =
          s :: s2 :: (M2 ++ List.replicate k []) := rfl
      rw [hshape]
      by_cases hs : s = []
      · have hd : doomF (s :: s2 :: (M2 ++ List.replicate k [])) =
            doomF (M2 ++ List.replicate k []) := by
          simp [doomF, hs]
        rw [hd]
        refine ih M2 (by simp at hlen ⊢; omega) ?_ k hk
        cases M2 with
        | nil => simp
        | cons x M3 =>
          rw [List.getLast?_cons_cons, List.getLast?_cons_cons] at hlast
          exact hlast
      · have hd : doomF (s :: s2 :: (M2 ++ List.replicate k [])) =
            doomF (s2 :: (M2 ++ List.replicate k [])) := by
          have hse : s.isEmpty = false := by
            cases s with
            | nil => exact absurd rfl hs
            | cons _ _ => rfl
          simp [doomF, hse]
        rw [hd]
        have hshape2 : s2 :: (M2 ++ List.replicate k []) =
            (s2 :: M2) ++ List.replicate k [] := rfl
        rw [hshape2]
        refine ih (s2 :: M2) (by simp at hlen ⊢; omega) ?_ k hk
        rw [List.getLast?_cons_cons] at hlast
        exact hlast

theorem doom_run (n : Nat) : ∀ split : List Str, split.length ≤ n →
    doomF split = true → ∀ t, runSplit split = some t →
    t.getLast? = some (.error .incompleteSequence) := by
  induction n with
  | zero =>
    intro split hlen hdoom t _
    have : split = [] := List.eq_nil_of_length_eq_zero (by omega)
    subst this
    simp [doomF] at hdoom
  | succ n ih =>
    intro split hlen hdoom t hrun
    match split with
    | [] => simp [doomF] at hdoom
    | [seg] =>
      have hseg : seg = [] := by
        simpa [doomF, List.isEmpty_iff] using hdoom
      subst hseg
      rw [runSplit_empty_last] at hrun
      simp only [Option.some.injEq] at hrun
      rw [← hrun]
      rfl
    | seg :: seg2 :: rest =>
      by_cases hs : seg = []
      · subst hs
        have hdoom' : doomF rest = true := by
          simpa [doomF] using hdoom
        rw [runSplit_empty_cons] at hrun
        obtain ⟨t', ht', hmap⟩ := Option.map_eq_some'.1 hrun
        have hlast := ih rest (by simp at hlen ⊢; omega) hdoom' t' ht'
        rw [← hmap]
        exact last_keep_cons (last_keep hlast)
      · have hdoom' : doomF (seg2 :: rest) = true := by
          have hse : seg.isEmpty = false := by
            cases seg with
            | nil => exact absurd rfl hs
            | cons _ _ => rfl
          simpa [doomF, hse] using hdoom
        cases hes : escape_sequence seg with
        | ok pr =>
          obtain ⟨ch, rem⟩ := pr
          rw [runSplit_seg_ok hs hes] at hrun
          obtain ⟨t', ht', hmap⟩ := Option.map_eq_some'.1 hrun
          have hlast := ih (seg2 :: rest) (by simp at hlen ⊢; omega) hdoom' t' ht'
          rw [← hmap]
          exact last_keep_cons (last_keep hlast)
        | err e0 =>
          rw [runSplit_seg_err hs hes] at hrun
          obtain ⟨t', ht', hmap⟩ := Option.map_eq_some'.1 hrun
          have hlast := ih (seg2 :: rest) (by simp at hlen ⊢; omega) hdoom' t' ht'
          rw [← hmap]
          exact last_keep_cons hlast
        | crash =>
          rw [runSplit_seg_crash hs hes] at hrun
          simp at hrun

/-! ### Inputs with an odd trailing backslash run -/

theorem head?_dropWhile {α : Type} (p : α → Bool) :
    ∀ l : List α, ∀ a, (l.dropWhile p).head? = some a → p a = false := by
  intro l
  induction l with
  | nil => intro a h; simp [List.dropWhile] at h
  | cons x xs ih =>
    intro a h
    rw [List.dropWhile_cons] at h
    split_ifs at h with hx
    · exact ih a h
    · simp only [List.head?_cons, Option.some.injEq] at h
      rw [← h]
      simpa using hx

theorem splitBs_append_one_bs : ∀ xs : Str, splitBs (xs ++ ['\\']) = splitBs xs ++ [[]] := by
  intro xs
  induction xs with
  | nil => rfl
  | cons c cs ih =>
    by_cases hc : c = '\\'
    · subst hc
      rw [List.cons_append, splitBs_cons_bs, splitBs_cons_bs, ih]
      rfl
    · cases hsp : splitBs cs with
      | nil => exact absurd hsp (splitBs_ne_nil cs)
      | cons h t =>
        have h1 : splitBs (cs ++ ['\\']) = h :: (t ++ [[]]) := by
          rw [ih, hsp]
          rfl
        rw [List.cons_append, splitBs_cons_ne hc _ h1, splitBs_cons_ne hc _ hsp]
        rfl

theorem splitBs_append_replicate_bs (y : Str) :
    ∀ k, splitBs (y ++ List.replicate k '\\') = splitBs y ++ List.replicate k [] := by
  intro k
  induction k with
  | zero => simp
  | succ k ih =>
    rw [List.replicate_succ', ← List.append_assoc, splitBs_append_one_bs, ih,
      List.replicate_succ', List.append_assoc]

theorem splitBs_getLast_ne_nil :
    ∀ y : Str, y ≠ [] → y.getLast? ≠ some '\\' →
      ∀ seg, (splitBs y).getLast? = some seg → seg ≠ [] := by
  intro y
  induction y with
  | nil => intro h; exact absurd rfl h
  | cons c cs ih =>
    intro _ hlast seg hseg
    cases cs with
    | nil =>
      have hc : c ≠ '\\' := by
        intro h
        exact hlast (by simp [h])
      have hsp : splitBs [c] = [[c]] := by
        simp [splitBs, hc]
      rw [hsp] at hseg
      simp only [List.getLast?_singleton, Option.some.injEq] at hseg
      rw [← hseg]
      simp
    | cons c2 cs2 =>
      have hlast' : (c2 :: cs2).getLast? ≠ some '\\' := by
        rw [List.getLast?_cons_cons] at hlast
        exact hlast
      have ih' := ih (by simp) hlast'
      by_cases hc : c = '\\'
      · subst hc
        rw [splitBs_cons_bs] at hseg
        cases hsp : splitBs (c2 :: cs2) with
        | nil => exact absurd hsp (splitBs_ne_nil _)
        | cons p ps =>
          rw [hsp, List.getLast?_cons_cons] at hseg
          exact ih' seg (by rw [hsp]; exact hseg)
      · cases hsp : splitBs (c2 :: cs2) with
        | nil => exact absurd hsp (splitBs_ne_nil _)
        | cons p ps =>
          rw [splitBs_cons_ne hc _ hsp] at hseg
          cases ps with
          | nil =>
            simp only [List.getLast?_singleton, Option.some.injEq] at hseg
            rw [← hseg]
            simp
          | cons p2 ps2 =>
            rw [List.getLast?_cons_cons] at hseg
            exact ih' seg (by rw [hsp, List.getLast?_cons_cons]; exact hseg)

theorem odd_trailing_decompose {s : Str} (h : OddTrailing s) :
    ∃ y k, s = y ++ List.replicate k '\\' ∧ k % 2 = 1 ∧
      y.getLast? ≠ some '\\' := by
  unfold OddTrailing trailingBs at h
  refine ⟨(s.reverse.dropWhile (fun c => c = '\\')).reverse,
    (s.reverse.takeWhile (fun c => c = '\\')).length, ?_, h, ?_⟩
  · have htw : (s.reverse.takeWhile (fun c => c = '\\')).reverse =
        List.replicate (s.reverse.takeWhile (fun c => c = '\\')).length '\\' := by
      rw [List.eq_replicate_iff]
      refine ⟨by simp, fun b hb => ?_⟩
      rw [List.mem_reverse] at hb
      simpa using List.mem_takeWhile_imp hb
    rw [← htw, ← List.reverse_append, List.takeWhile_append_dropWhile, List.reverse_reverse]
  · rw [List.getLast?_reverse]
    intro hh
    have := head?_dropWhile (fun c => c = '\\') s.reverse '\\' hh
    simp at this

/-! ### Claim C8 -/

/-- C8, counterexample: the input `\x€\` ends in a lone backslash, but the
first step of iteration panics on the byte slice inside `€`, so the iteration
never yields `IncompleteSequence` (its trace is `none`). -/
theorem c8_counterexample :
    (Unescaped.new ['\\', 'x', '€', '\\']).next = .crash ∧
    runChars (Unescaped.new ['\\', 'x', '€', '\\']) = none := by
  decide

/-- C8 (amended): for every input that ends in a lone (unmatched) backslash —
an odd-length trailing run of backslashes, including the case where the
backslash is the whole input — if no step of the iteration panics (the trace
is `some outs`), then the iteration eventually yields `IncompleteSequence`,
as the very last item before exhaustion, after any preceding fragments or
errors. -/
theorem c8_trailing_backslash {s : Str} {outs : List (Except Error Char)}
    (hodd : OddTrailing s) (hrun : runChars (Unescaped.new s) = some outs) :
    outs.getLast? = some (.error .incompleteSequence) := by
  obtain ⟨y, k, hs, hk, hy⟩ := odd_trailing_decompose hodd
  subst hs
  have hsp := splitBs_append_replicate_bs y k
  cases hspy : splitBs y with
  | nil => exact absurd hspy (splitBs_ne_nil y)
  | cons f r =>
    rw [hspy] at hsp
    have hnew : Unescaped.new (y ++ List.replicate k '\\') =
        ⟨r ++ List.replicate k [], if f = [] then none else some f⟩ := by
      unfold Unescaped.new
      rw [hsp]
      rfl
    rw [hnew] at hrun
    have hMlast : r.getLast? ≠ some ([] : Str) := by
      cases r with
      | nil => simp
      | cons x r2 =>
        intro hcontra
        have hyne : y ≠ [] := by
          intro hynil
          rw [hynil] at hspy
          simp [splitBs] at hspy
        have hgl : (splitBs y).getLast? = some ([] : Str) := by
          rw [hspy, List.getLast?_cons_cons]
          exact hcontra
        exact splitBs_getLast_ne_nil y hyne hy [] hgl rfl
    have hdoom := doom_append r.length r (le_refl _) hMlast k hk
    simp only [runChars] at hrun
    obtain ⟨t, ht, hmap⟩ := Option.map_eq_some'.1 hrun
    have hlast := doom_run (r ++ List.replicate k []).length _ (le_refl _) hdoom t ht
    rw [← hmap]
    exact last_keep hlast

/-- C8, witness: `a\` yields `Ok('a')` then `Err(IncompleteSequence)`; the
error is the last item of the trace. -/
theorem c8_trailing_backslash_witness :
    OddTrailing ['a', '\\'] ∧
    runChars (Unescaped.new ['a', '\\']) =
      some [.ok 'a', .error .incompleteSequence] ∧
    ([Except.ok 'a', Except.error Error.incompleteSequence]).getLast? =
      some (.error .incompleteSequence) :=
  ⟨by decide, by decide,
    @c8_trailing_backslash ['a', '\\']
      [Except.ok 'a', Except.error Error.incompleteSequence] (by decide) (by decide)⟩

end Unesc
